import Mathlib

/-!
# emojigate: the naming validator over a parsed YAML tree

A shallow embedding of `internal/linter.go` (package `internal` of
FohkinScroob/emojigate) and theorems about it.

Conventions of the embedding.

* A Go `string` that holds valid UTF-8 is a Lean `String`: the list of its
  Unicode scalar values, which is what `[]rune(s)` yields.
* A `*yaml.Node` is a `yaml.Node`: the three fields the linter reads (`Kind`,
  `Value`, `Content`).  Pointers are never nil (the parser never produces one).
* A Go `error` is an `Option String` (`none` is `nil`), a `(T, error)` helper
  result is an `Except String T`.
* `out *[]Violation` is state passing: the function takes the list and
  returns the list after its appends.
* A run-time index-out-of-range abort is the result `Outcome.indexOutOfRange`.
-/

set_option autoImplicit false

/-! ## The YAML node (gopkg.in/yaml.v3) -/

/-- Modelled from the spec: the node tag of `gopkg.in/yaml.v3` (the library is
not part of the repository).  The spec names Document, Mapping, Sequence and
Scalar; `Zero` is the tag of the zero-valued node (`Kind = 0`) and `AliasNode`
the remaining tag of the library. -/
inductive yaml.Kind where
  | Zero
  | DocumentNode
  | SequenceNode
  | MappingNode
  | ScalarNode
  | AliasNode
  deriving DecidableEq, Repr

/-- Modelled from the spec: a generic YAML node, with the fields of
`yaml.Node` that the linter reads.  A mapping stores its entries as a flat
alternating key/value list in source order. -/
inductive yaml.Node where
  | mk (kind : yaml.Kind) (value : String) (content : List yaml.Node)

/-- Field `Kind` of a node. -/
def yaml.Node.Kind : yaml.Node → yaml.Kind
  | .mk k _ _ => k

/-- Field `Value` of a node. -/
def yaml.Node.Value : yaml.Node → String
  | .mk _ v _ => v

/-- Field `Content` of a node. -/
def yaml.Node.Content : yaml.Node → List yaml.Node
  | .mk _ _ c => c

/-! ## linter.go: types and constants -/

/-- `type GithubActionType string`. -/
abbrev GithubActionType := String

/-- Constant `Workflow`. -/
def Workflow : GithubActionType := "Workflow"

/-- Constant `Job`. -/
def Job : GithubActionType := "Job"

/-- Constant `Step`. -/
def Step : GithubActionType := "Step"

/-- Constant `yamlKeyValuePairSize`. -/
def yamlKeyValuePairSize : Nat := 2

/-- `type Violation struct`; the field `Type` is spelled `Type_` since `Type`
is reserved. -/
structure Violation where
  Type_ : GithubActionType
  Identifier : String
  Msg : String
  deriving DecidableEq, Repr

/-- The message of a missing `name:` field (the same literal for workflow and
job). -/
def msgMissingName : String :=
  "Missing display name. Please add a 'name:' field starting with an emoji."

/-- The message of a name that does not start with an emoji (the same literal
for workflow, job and step, linter.go lines 66, 107 and 159), character for
character: its example name starts with the four characters U+00F0 U+0178
U+0161 U+20AC. -/
def msgNoEmoji : String :=
  "Name must start with an emoji. Example: 'ðŸš€ Deploy'"

/-- How a call ends: it returns a value, or the Go run time aborts it on an
index out of range. -/
inductive Outcome (α : Type) where
  | returned (a : α)
  | indexOutOfRange
  deriving DecidableEq, Repr

/-! ## linter.go: functions -/

/-- `startsWithEmoji`: `r := []rune(s)`; false when `len(r) == 0`, else the
eleven range tests on `r[0]`. -/
def startsWithEmoji (s : String) : Bool :=
  match s.data with
  | [] => false
  | r0 :: _ =>
    let emoji := r0.toNat
    (emoji ≥ 0x1F600 && emoji ≤ 0x1F64F) ||
    (emoji ≥ 0x1F300 && emoji ≤ 0x1F5FF) ||
    (emoji ≥ 0x1F680 && emoji ≤ 0x1F6FF) ||
    (emoji ≥ 0x1F1E0 && emoji ≤ 0x1F1FF) ||
    (emoji ≥ 0x2600 && emoji ≤ 0x26FF) ||
    (emoji ≥ 0x2700 && emoji ≤ 0x27BF) ||
    (emoji ≥ 0x1F900 && emoji ≤ 0x1F9FF) ||
    (emoji ≥ 0x1FA00 && emoji ≤ 0x1FA6F) ||
    (emoji ≥ 0x1F004 && emoji ≤ 0x1F0CF) ||
    (emoji ≥ 0x2300 && emoji ≤ 0x23FF) ||
    (emoji ≥ 0x2B00 && emoji ≤ 0x2BFF)

/-- The loop of `findNameIndex`, `for index, node := range nodes`, from the
position `index` on. -/
def findNameIndexFrom : List yaml.Node → Nat → Except String Nat
  | [], _ => .error "name field not found"
  | node :: rest, index =>
    if node.Kind = yaml.Kind.ScalarNode ∧ node.Value = "name" then .ok index
    else findNameIndexFrom rest (index + 1)

/-- `findNameIndex`: the index of the first node of the list (keys and values
alike) that is a scalar equal to "name". -/
def findNameIndex (nodes : List yaml.Node) : Except String Nat :=
  findNameIndexFrom nodes 0

/-- `getName`. -/
def getName (configNode : yaml.Node) : Except String String :=
  match findNameIndex configNode.Content with
  | .error err => .error err
  | .ok index =>
    if h : configNode.Content.length < index + yamlKeyValuePairSize then
      .error "name field has no value"
    else
      have hlt : index + 1 < configNode.Content.length := by
        unfold yamlKeyValuePairSize at h; omega
      let nameNode := configNode.Content[index + 1]
      .ok nameNode.Value

/-- `lintWorkflowName`, returning the list `*out` after the call. -/
def lintWorkflowName (workflowRoot : yaml.Node) (out : List Violation) : List Violation :=
  match getName workflowRoot with
  | .error _ => out ++ [{ Type_ := Workflow, Identifier := "workflow", Msg := msgMissingName }]
  | .ok name =>
    if !startsWithEmoji name then
      out ++ [{ Type_ := Workflow, Identifier := name, Msg := msgNoEmoji }]
    else out

/-- The loop of `findJobsNode`, `for i := 0; i < len; i += yamlKeyValuePairSize`,
on the children from position `i` on: `key` is `Content[i]`; when it matches
and no child follows, `i+1 >= len`. -/
def findJobsNodeLoop : List yaml.Node → Except String yaml.Node
  | [] => .error "jobs key not found"
  | [key] =>
    if key.Kind = yaml.Kind.ScalarNode ∧ key.Value = "jobs" then .error "jobs key has no value"
    else .error "jobs key not found"
  | key :: value :: rest =>
    if key.Kind = yaml.Kind.ScalarNode ∧ key.Value = "jobs" then .ok value
    else findJobsNodeLoop rest

/-- `findJobsNode`. -/
def findJobsNode (workflowRoot : yaml.Node) : Except String yaml.Node :=
  findJobsNodeLoop workflowRoot.Content

/-- The loop of `findStepsIndex` from the position `index` on; `none` is the
result `-1`. -/
def findStepsIndexFrom : List yaml.Node → Nat → Option Nat
  | [], _ => none
  | node :: rest, index =>
    if node.Kind = yaml.Kind.ScalarNode ∧ node.Value = "steps" then some index
    else findStepsIndexFrom rest (index + 1)

/-- `findStepsIndex`; `none` is the result `-1`. -/
def findStepsIndex (nodes : List yaml.Node) : Option Nat :=
  findStepsIndexFrom nodes 0

/-- `lintStep`, returning the list `*out` after the call and the error.  The
access `stepNode.Content[index+1]` is not guarded in the source. -/
def lintStep (stepNode : yaml.Node) (out : List Violation) :
    Outcome (List Violation × Option String) :=
  match findNameIndex stepNode.Content with
  | .error _ => .returned (out, some "step does not contain a name property")
  | .ok index =>
    match stepNode.Content[index + 1]? with
    | none => .indexOutOfRange
    | some nameNode =>
      let name := nameNode.Value
      if !startsWithEmoji name then
        .returned (out ++ [{ Msg := msgNoEmoji, Type_ := Step, Identifier := name }], none)
      else .returned (out, none)

/-- The loop of `lintSteps`, `for _, step := range ...Content`. -/
def lintStepsLoop : List yaml.Node → List Violation → Outcome (List Violation × Option String)
  | [], out => .returned (out, none)
  | step :: rest, out =>
    match lintStep step out with
    | .indexOutOfRange => .indexOutOfRange
    | .returned (out1, some err) => .returned (out1, some err)
    | .returned (out1, none) => lintStepsLoop rest out1

/-- `lintSteps`; its argument is the job configuration node. -/
def lintSteps (stepsNode : yaml.Node) (out : List Violation) :
    Outcome (List Violation × Option String) :=
  match findStepsIndex stepsNode.Content with
  | none => .returned (out, none)
  | some index =>
    if stepsNode.Content.length < index + yamlKeyValuePairSize then
      .returned (out, some "steps node content is not even. Every step must have configuration set")
    else
      match stepsNode.Content[index + 1]? with
      | none => .indexOutOfRange
      | some steps => lintStepsLoop steps.Content out

/-- The loop of `lintJobs`, `for i := 0; i < len; i += yamlKeyValuePairSize`,
on the children from position `i` on: `key` is `Content[i]`, `jobConfig` is
`Content[i+1]`.  The branch of a failed `getName` ends in `continue`. -/
def lintJobsLoop : List yaml.Node → List Violation → Outcome (List Violation × Option String)
  | [], out => .returned (out, none)
  | [_], _ => .indexOutOfRange
  | key :: jobConfig :: rest, out =>
    let jobName := key.Value
    match getName jobConfig with
    | .error _ =>
      lintJobsLoop rest (out ++ [{ Type_ := Job, Identifier := jobName, Msg := msgMissingName }])
    | .ok name =>
      let out1 :=
        if !startsWithEmoji name then
          out ++ [{ Type_ := Job, Identifier := jobName, Msg := msgNoEmoji }]
        else out
      match lintSteps jobConfig out1 with
      | .indexOutOfRange => .indexOutOfRange
      | .returned (out2, some err) => .returned (out2, some err)
      | .returned (out2, none) => lintJobsLoop rest out2

/-- `lintJobs`. -/
def lintJobs (jobsNode : yaml.Node) (out : List Violation) :
    Outcome (List Violation × Option String) :=
  if jobsNode.Content.length % yamlKeyValuePairSize ≠ 0 then
    .returned (out, some "jobs node content is not even. Every job must have configuration set")
  else lintJobsLoop jobsNode.Content out

/-- `LintWorkflow`: the pair is the returned `([]Violation, error)`; a nil
slice is the empty list. -/
def LintWorkflow (root : yaml.Node) : Outcome (List Violation × Option String) :=
  let violations : List Violation := []
  if root.Kind ≠ yaml.Kind.DocumentNode ∨ root.Content.length = 0 then
    .returned ([], some "invalid workflow: expected document node")
  else
    match root.Content[0]? with
    | none => .indexOutOfRange
    | some workflowRoot =>
      if workflowRoot.Kind ≠ yaml.Kind.MappingNode then
        .returned ([], some "invalid workflow: root must be a mapping")
      else
        let violations := lintWorkflowName workflowRoot violations
        match findJobsNode workflowRoot with
        | .error _ => .returned ([], some "jobs section not found in workflow")
        | .ok jobsNode =>
          match lintJobs jobsNode violations with
          | .indexOutOfRange => .indexOutOfRange
          | .returned (_, some err) => .returned ([], some err)
          | .returned (violations, none) => .returned (violations, none)

/-! ## Vocabulary of the specification -/

/-- The eleven inclusive ranges of the emoji predicate, as the specification
lists them. -/
def emojiRanges : List (Nat × Nat) :=
  [(0x1F600, 0x1F64F), (0x1F300, 0x1F5FF), (0x1F680, 0x1F6FF), (0x1F1E0, 0x1F1FF),
   (0x2600, 0x26FF), (0x2700, 0x27BF), (0x1F900, 0x1F9FF), (0x1FA00, 0x1FA6F),
   (0x1F004, 0x1F0CF), (0x2300, 0x23FF), (0x2B00, 0x2BFF)]

/-- The specification's `compliant(S)`: `S` is non-empty and its first scalar
value lies in one of the eleven ranges. -/
def compliant (s : String) : Prop :=
  ∃ c ∈ s.data.head?, ∃ r ∈ emojiRanges, r.1 ≤ c.toNat ∧ c.toNat ≤ r.2

instance compliantDecidable (s : String) : Decidable (compliant s) := by
  unfold compliant; infer_instance

/-- The keys of a flat key/value list: the children at the even positions. -/
def mappingKeys : List yaml.Node → List yaml.Node
  | [] => []
  | [key] => [key]
  | key :: _ :: rest => key :: mappingKeys rest

/-- The mapping with this flat child list has a key equal to `key`: one of
the children at an even position is a scalar with that text. -/
def hasKey (key : String) (content : List yaml.Node) : Prop :=
  ∃ k ∈ mappingKeys content, k.Kind = yaml.Kind.ScalarNode ∧ k.Value = key

instance hasKeyDecidable (key : String) (content : List yaml.Node) :
    Decidable (hasKey key content) := by
  unfold hasKey; infer_instance

/-! ## Builders for trees of the shapes the specification names -/

/-- A scalar node with the given text. -/
def scalarNode (v : String) : yaml.Node := .mk .ScalarNode v []

/-- A mapping node over a flat key/value list. -/
def mappingNode (kvs : List yaml.Node) : yaml.Node := .mk .MappingNode "" kvs

/-- A sequence node. -/
def sequenceNode (items : List yaml.Node) : yaml.Node := .mk .SequenceNode "" items

/-- A document node with one child. -/
def documentNode (child : yaml.Node) : yaml.Node := .mk .DocumentNode "" [child]

/-- The step mapping with the single entry `name: s`. -/
def stepNamed (s : String) : yaml.Node :=
  mappingNode [scalarNode "name", scalarNode s]

/-- The job configuration `{name: j, steps: [{name: s_1}, ..., {name: s_n}]}`. -/
def jobConfigNamed (j : String) (steps : List String) : yaml.Node :=
  mappingNode [scalarNode "name", scalarNode j,
    scalarNode "steps", sequenceNode (steps.map stepNamed)]

/-- One entry of the jobs mapping: its key node, its declared name and the
names of its steps. -/
structure JobShape where
  key : yaml.Node
  name : String
  steps : List String

/-- The flat key/value list of the jobs mapping. -/
def jobsEntries : List JobShape → List yaml.Node
  | [] => []
  | j :: rest => j.key :: jobConfigNamed j.name j.steps :: jobsEntries rest

/-- The document `{name: w, jobs: {k_1: c_1, ..., k_m: c_m}}`. -/
def workflowDocument (w : String) (jobs : List JobShape) : yaml.Node :=
  documentNode (mappingNode [scalarNode "name", scalarNode w,
    scalarNode "jobs", mappingNode (jobsEntries jobs)])

/-- The violation of a workflow, job or step name without an emoji. -/
def noEmojiViolation (t : GithubActionType) (identifier : String) : Violation :=
  { Type_ := t, Identifier := identifier, Msg := msgNoEmoji }

/-- The violation of a workflow or job without a `name:` field. -/
def missingNameViolation (t : GithubActionType) (identifier : String) : Violation :=
  { Type_ := t, Identifier := identifier, Msg := msgMissingName }

/-! ## Concrete documents -/

/-- The document `name: Deploy`, `on: push`: no jobs section. -/
def noJobsDocument : yaml.Node :=
  documentNode (mappingNode [scalarNode "name", scalarNode "Deploy",
    scalarNode "on", scalarNode "push"])

/-- The document
`name: Deploy`, `jobs: {build: {name: steps, steps: [{name: Checkout}]}}`:
one job, whose display name is the text "steps", with one step. -/
def jobNamedStepsDocument : yaml.Node :=
  workflowDocument "Deploy"
    [{ key := scalarNode "build", name := "steps", steps := ["Checkout"] }]

/-- The document `jobs: {build: {steps: [{name: Checkout}]}}` of the
specification's second scenario. -/
def missingNamesDocument : yaml.Node :=
  documentNode (mappingNode [scalarNode "jobs", mappingNode [scalarNode "build",
    mappingNode [scalarNode "steps", sequenceNode [stepNamed "Checkout"]]]])

/-- The document `name: 🚀 Deploy`,
`jobs: {build: {runs-on: ubuntu-latest, steps: [{run: make}]}}`: the job has
no name and its only step has no name either. -/
def namelessStepDocument : yaml.Node :=
  documentNode (mappingNode [scalarNode "name", scalarNode "🚀 Deploy",
    scalarNode "jobs", mappingNode [scalarNode "build",
      mappingNode [scalarNode "runs-on", scalarNode "ubuntu-latest",
        scalarNode "steps", sequenceNode [mappingNode [scalarNode "run", scalarNode "make"]]]]])

/-- The document of `namelessStepDocument` with `name: 🔨 Build` added to the
job. -/
def namelessStepNamedJobDocument : yaml.Node :=
  documentNode (mappingNode [scalarNode "name", scalarNode "🚀 Deploy",
    scalarNode "jobs", mappingNode [scalarNode "build",
      mappingNode [scalarNode "name", scalarNode "🔨 Build",
        scalarNode "runs-on", scalarNode "ubuntu-latest",
        scalarNode "steps", sequenceNode [mappingNode [scalarNode "run", scalarNode "make"]]]]])

/-- The document `run-name: name`, `jobs: {build: {name: 🔨 Build}}`: the
root mapping has no key `name`, and the value of its first entry is the text
"name". -/
def runNameDocument : yaml.Node :=
  documentNode (mappingNode [scalarNode "run-name", scalarNode "name",
    scalarNode "jobs", mappingNode [scalarNode "build",
      mappingNode [scalarNode "name", scalarNode "🔨 Build"]]])

/-- The document `run-name: name`, `name: 🚀 Deploy`,
`jobs: {build: {name: 🔨 Build}}`: the key `name` has a compliant value, and
the value of the entry before it is the text "name". -/
def runNameNamedDocument : yaml.Node :=
  documentNode (mappingNode [scalarNode "run-name", scalarNode "name",
    scalarNode "name", scalarNode "🚀 Deploy",
    scalarNode "jobs", mappingNode [scalarNode "build",
      mappingNode [scalarNode "name", scalarNode "🔨 Build"]]])

/-- The jobs mapping `{build: {environment: name, name: 🔨 Build}}`. -/
def environmentJobs : yaml.Node :=
  mappingNode [scalarNode "build",
    mappingNode [scalarNode "environment", scalarNode "name",
      scalarNode "name", scalarNode "🔨 Build"]]

/-- The step mapping `{id: name, name: 🚀 Deploy}`. -/
def idNameStep : yaml.Node :=
  mappingNode [scalarNode "id", scalarNode "name", scalarNode "name", scalarNode "🚀 Deploy"]

/-! ## Vocabulary for document order and key lookup -/

/-- The specification's key lookup: a linear forward scan of the flat
key/value list, pair by pair, for a scalar key with the given text; the value
of the first match. -/
def lookupKey (key : String) : List yaml.Node → Option yaml.Node
  | [] => none
  | [_] => none
  | k :: v :: rest =>
    if k.Kind = yaml.Kind.ScalarNode ∧ k.Value = key then some v else lookupKey key rest

/-- The flat key/value list as pairs, in source order. -/
def mappingPairs : List yaml.Node → List (yaml.Node × yaml.Node)
  | k :: v :: rest => (k, v) :: mappingPairs rest
  | _ => []

/-- The result of a call with `out` put in front of its violations. -/
def Outcome.prepend (out : List Violation) :
    Outcome (List Violation × Option String) → Outcome (List Violation × Option String)
  | .returned (vs, err) => .returned (out ++ vs, err)
  | .indexOutOfRange => .indexOutOfRange

/-- The Job and Step violations of a list, in their order. -/
def jobAndStepViolations (vs : List Violation) : List Violation :=
  vs.filter (fun v => v.Type_ = Job ∨ v.Type_ = Step)

/-- A result with its violation list cut down to the Job and Step violations. -/
def Outcome.jobAndStep :
    Outcome (List Violation × Option String) → Outcome (List Violation × Option String)
  | .returned (vs, err) => .returned (jobAndStepViolations vs, err)
  | .indexOutOfRange => .indexOutOfRange

/-- The violations of one step: at most one, of type Step, identified by the
text of a child of that step. -/
def StepOutput (step : yaml.Node) (vs : List Violation) : Prop :=
  vs.length ≤ 1 ∧ ∀ v ∈ vs, v.Type_ = Step ∧ ∃ nameNode ∈ step.Content, v.Identifier = nameNode.Value

/-- The violations of one job, in order: at most one Job violation, identified
by the job key, then the violations of the steps in the order of the steps
list (the children of a child of the configuration, or no steps at all). -/
def JobOutput (key config : yaml.Node) (vs : List Violation) : Prop :=
  ∃ (jobPart : List Violation) (steps : List yaml.Node) (stepParts : List (List Violation)),
    vs = jobPart ++ stepParts.flatten ∧ jobPart.length ≤ 1 ∧
    (∀ v ∈ jobPart, v.Type_ = Job ∧ v.Identifier = key.Value) ∧
    (steps = [] ∨ ∃ seq ∈ config.Content, steps = seq.Content) ∧
    List.Forall₂ StepOutput steps stepParts

/-- The document `name: 🚀 Deploy`, `jobs:` a mapping node with the one child
`build`, a key without a configuration. -/
def oddJobsDocument : yaml.Node :=
  documentNode (mappingNode [scalarNode "name", scalarNode "🚀 Deploy",
    scalarNode "jobs", mappingNode [scalarNode "build"]])

/-- The job configuration `{name: 🔨 Build, needs: steps}`: no key "steps";
the value of its last entry is the text "steps". -/
def needsStepsConfig : yaml.Node :=
  mappingNode [scalarNode "name", scalarNode "🔨 Build", scalarNode "needs", scalarNode "steps"]

/-- The document `name: 🚀 Deploy`,
`jobs: {build: {name: 🔨 Build, needs: steps}}`. -/
def needsStepsDocument : yaml.Node :=
  documentNode (mappingNode [scalarNode "name", scalarNode "🚀 Deploy",
    scalarNode "jobs", mappingNode [scalarNode "build", needsStepsConfig]])

/-- The zero-valued node that the parser returns for empty input. -/
def emptyInputNode : yaml.Node := .mk .Zero "" []

/-- The document `name: 🚀 Deploy`,
`jobs: {build: {name: 🔨 Build, steps: none}}`: the value of `steps` is a
scalar. -/
def stepsScalarDocument : yaml.Node :=
  documentNode (mappingNode [scalarNode "name", scalarNode "🚀 Deploy",
    scalarNode "jobs", mappingNode [scalarNode "build",
      mappingNode [scalarNode "name", scalarNode "🔨 Build",
        scalarNode "steps", scalarNode "none"]]])

/-- The document `name: 🚀 Deploy`, `jobs: build`: the value of `jobs` is a
scalar. -/
def jobsScalarDocument : yaml.Node :=
  documentNode (mappingNode [scalarNode "name", scalarNode "🚀 Deploy",
    scalarNode "jobs", scalarNode "build"])

/-- The document `name: 🚀 Deploy`, `jobs: [build, test]`: the value of `jobs`
is a sequence of two scalars. -/
def jobsSequenceDocument : yaml.Node :=
  documentNode (mappingNode [scalarNode "name", scalarNode "🚀 Deploy",
    scalarNode "jobs", sequenceNode [scalarNode "build", scalarNode "test"]])

/-- A Document node with two children: the mapping `name: 🚀 Deploy`,
`jobs: {}` and a scalar. -/
def twoChildrenDocument : yaml.Node :=
  .mk .DocumentNode "" [mappingNode [scalarNode "name", scalarNode "🚀 Deploy",
    scalarNode "jobs", mappingNode []], scalarNode "extra"]

/-- The document `name: 🚀 Deploy`, `jobs: {build: ...}` where the
configuration of `build` has the three children `name`, `🔨 Build`,
`runs-on`: its last key has no value. -/
def oddJobConfigDocument : yaml.Node :=
  documentNode (mappingNode [scalarNode "name", scalarNode "🚀 Deploy",
    scalarNode "jobs", mappingNode [scalarNode "build",
      mappingNode [scalarNode "name", scalarNode "🔨 Build", scalarNode "runs-on"]]])

/-- The document `name: 🚀 Deploy`,
`jobs: {lint: {name: 🧹 Lint}, build: ...}` where the configuration of
`build` has the three children `name`, `🔨 Build`, `steps`: the key "steps"
has no value. -/
def danglingStepsDocument : yaml.Node :=
  documentNode (mappingNode [scalarNode "name", scalarNode "🚀 Deploy",
    scalarNode "jobs", mappingNode [
      scalarNode "lint", mappingNode [scalarNode "name", scalarNode "🧹 Lint"],
      scalarNode "build",
      mappingNode [scalarNode "name", scalarNode "🔨 Build", scalarNode "steps"]]])

mutual
/-- Every mapping node of the tree has an even number of children, as in every
tree the parser builds. -/
def evenMappings : yaml.Node → Bool
  | .mk kind _ content =>
    (decide (kind ≠ yaml.Kind.MappingNode) || content.length % 2 == 0) &&
      evenMappingsList content
/-- Every mapping node of the trees of the list has an even number of
children. -/
def evenMappingsList : List yaml.Node → Bool
  | [] => true
  | node :: rest => evenMappings node && evenMappingsList rest
end

/-- The document `name: 🚀 Deploy`,
`jobs: {build: {name: 🔨 Build, steps: [{uses: name}]}}`: the one step has
the single entry `uses: name`. -/
def usesNameDocument : yaml.Node :=
  documentNode (mappingNode [scalarNode "name", scalarNode "🚀 Deploy",
    scalarNode "jobs", mappingNode [scalarNode "build",
      mappingNode [scalarNode "name", scalarNode "🔨 Build",
        scalarNode "steps",
        sequenceNode [mappingNode [scalarNode "uses", scalarNode "name"]]]]])

/-- The document `run-name: name`, `name: 🚀 Deploy`,
`jobs: {build: {name: 🔨 Build, steps: [{id: name, name: 📥 Checkout}]}}`:
the workflow, the job and the step declare compliant names; the entry before
the workflow name and the entry before the step name have the value "name". -/
def compliantNamesDocument : yaml.Node :=
  documentNode (mappingNode [scalarNode "run-name", scalarNode "name",
    scalarNode "name", scalarNode "🚀 Deploy",
    scalarNode "jobs", mappingNode [scalarNode "build",
      mappingNode [scalarNode "name", scalarNode "🔨 Build",
        scalarNode "steps", sequenceNode [
          mappingNode [scalarNode "id", scalarNode "name",
            scalarNode "name", scalarNode "📥 Checkout"]]]]])

/-! ## Lemmas -/

@[simp] theorem yaml.Node.Kind_mk (k : yaml.Kind) (v : String) (c : List yaml.Node) :
    (yaml.Node.mk k v c).Kind = k := rfl

@[simp] theorem yaml.Node.Value_mk (k : yaml.Kind) (v : String) (c : List yaml.Node) :
    (yaml.Node.mk k v c).Value = v := rfl

@[simp] theorem yaml.Node.Content_mk (k : yaml.Kind) (v : String) (c : List yaml.Node) :
    (yaml.Node.mk k v c).Content = c := rfl

/-- The guard of `getName` is the bounds test of `Content[index+1]`. -/
theorem getName_eq (configNode : yaml.Node) :
    getName configNode =
      match findNameIndex configNode.Content with
      | .error err => .error err
      | .ok index =>
        match configNode.Content[index + 1]? with
        | none => .error "name field has no value"
        | some nameNode => .ok nameNode.Value := by
  unfold getName
  cases findNameIndex configNode.Content with
  | error e => rfl
  | ok index =>
    simp only [yamlKeyValuePairSize]
    split
    · next h =>
      have hnone : configNode.Content[index + 1]? = none := by
        rw [List.getElem?_eq_none_iff]; omega
      rw [hnone]
    · next h =>
      have hlt : index + 1 < configNode.Content.length := by omega
      rw [List.getElem?_eq_getElem hlt]

/-- A compliant name is not the text "steps". -/
theorem startsWithEmoji_ne_steps (s : String) (h : startsWithEmoji s = true) : s ≠ "steps" := by
  rintro rfl
  exact absurd h (by decide)

/-- `lintStep` on the step `{name: s}`. -/
theorem lintStep_stepNamed (s : String) (out : List Violation) :
    lintStep (stepNamed s) out =
      if startsWithEmoji s = true then .returned (out, none)
      else .returned (out ++ [noEmojiViolation Step s], none) := by
  simp [lintStep, stepNamed, mappingNode, scalarNode, findNameIndex, findNameIndexFrom,
    noEmojiViolation]
  cases startsWithEmoji s <;> simp

/-- The loop of `lintSteps` on steps `{name: s_i}` appends, in step order, one
violation for each name that fails the predicate. -/
theorem lintStepsLoop_stepNamed (steps : List String) (out : List Violation) :
    lintStepsLoop (steps.map stepNamed) out =
      .returned (out ++ (steps.filter (fun s => !startsWithEmoji s)).map (noEmojiViolation Step),
        none) := by
  induction steps generalizing out with
  | nil => simp [lintStepsLoop]
  | cons s rest ih =>
    cases hs : startsWithEmoji s
    · simp [lintStepsLoop, lintStep_stepNamed, hs, ih]
    · simp [lintStepsLoop, lintStep_stepNamed, hs, ih]

/-- `getName` on the job configuration `{name: j, steps: ...}`. -/
theorem getName_jobConfigNamed (j : String) (steps : List String) :
    getName (jobConfigNamed j steps) = .ok j := by
  simp [getName_eq, jobConfigNamed, mappingNode, scalarNode, findNameIndex, findNameIndexFrom]

/-- `lintSteps` on the job configuration `{name: j, steps: ...}` reaches the
steps when `j` is not the text "steps". -/
theorem lintSteps_jobConfigNamed (j : String) (steps : List String) (out : List Violation)
    (hj : j ≠ "steps") :
    lintSteps (jobConfigNamed j steps) out = lintStepsLoop (steps.map stepNamed) out := by
  simp [lintSteps, jobConfigNamed, mappingNode, scalarNode, sequenceNode, findStepsIndex,
    findStepsIndexFrom, hj, yamlKeyValuePairSize]

theorem jobsEntries_length_even (jobs : List JobShape) : (jobsEntries jobs).length % 2 = 0 := by
  induction jobs with
  | nil => rfl
  | cons j rest ih => simp only [jobsEntries, List.length_cons]; omega

/-- The loop of `lintJobs` appends nothing when every job name and step name
is compliant. -/
theorem lintJobsLoop_compliant (jobs : List JobShape) (out : List Violation)
    (h : ∀ j ∈ jobs, startsWithEmoji j.name = true ∧ ∀ s ∈ j.steps, startsWithEmoji s = true) :
    lintJobsLoop (jobsEntries jobs) out = .returned (out, none) := by
  induction jobs with
  | nil => rfl
  | cons j rest ih =>
    obtain ⟨hn, hs⟩ := h j (List.mem_cons_self _ _)
    have hrest := fun t ht => h t (List.mem_cons_of_mem j ht)
    have hfilter : j.steps.filter (fun s => !startsWithEmoji s) = [] := by
      rw [List.filter_eq_nil_iff]
      intro s hmem
      simp [hs s hmem]
    simp only [jobsEntries, lintJobsLoop, getName_jobConfigNamed, hn, Bool.not_true,
      Bool.false_eq_true, if_false,
      lintSteps_jobConfigNamed j.name j.steps out (startsWithEmoji_ne_steps _ hn),
      lintStepsLoop_stepNamed, hfilter, List.map_nil, List.append_nil]
    exact ih hrest

/-- Without a key "jobs" the loop of `findJobsNode` runs to its end. -/
theorem findJobsNodeLoop_of_no_key :
    ∀ content : List yaml.Node, ¬ hasKey "jobs" content →
      findJobsNodeLoop content = .error "jobs key not found"
  | [], _ => rfl
  | [key], h => by
    have hk : ¬ (key.Kind = yaml.Kind.ScalarNode ∧ key.Value = "jobs") :=
      fun hk => h ⟨key, by simp [mappingKeys], hk⟩
    simp only [findJobsNodeLoop, hk, if_false]
  | key :: value :: rest, h => by
    have hk : ¬ (key.Kind = yaml.Kind.ScalarNode ∧ key.Value = "jobs") :=
      fun hk => h ⟨key, by simp [mappingKeys], hk⟩
    have hrest : ¬ hasKey "jobs" rest := by
      rintro ⟨k, hmem, hk2⟩
      exact h ⟨k, by simp [mappingKeys, hmem], hk2⟩
    simp only [findJobsNodeLoop, hk, if_false, findJobsNodeLoop_of_no_key rest hrest]

/-- The child after the one that follows a prefix. -/
theorem getElem?_after_prefix (pre rest : List yaml.Node) (key value : yaml.Node) :
    (pre ++ key :: value :: rest)[0 + pre.length + 1]? = some value := by
  induction pre with
  | nil => simp
  | cons n pre ih =>
    simp only [Nat.zero_add] at ih
    simp only [List.cons_append, List.length_cons, Nat.zero_add, List.getElem?_cons_succ, ih]

/-- The loop of `findNameIndex` passes over nodes that are not the scalar
"name" and stops at the first one that is. -/
theorem findNameIndexFrom_append (pre rest : List yaml.Node) (key : yaml.Node) (i : Nat)
    (hpre : ∀ n ∈ pre, ¬ (n.Kind = yaml.Kind.ScalarNode ∧ n.Value = "name"))
    (hkey : key.Kind = yaml.Kind.ScalarNode ∧ key.Value = "name") :
    findNameIndexFrom (pre ++ key :: rest) i = .ok (i + pre.length) := by
  induction pre generalizing i with
  | nil => simp only [List.nil_append, findNameIndexFrom, hkey, and_self, if_true,
      List.length_nil, Nat.add_zero]
  | cons n pre ih =>
    have hn := hpre n (List.mem_cons_self _ _)
    have hrest := fun m hm => hpre m (List.mem_cons_of_mem n hm)
    have harith : i + 1 + pre.length = i + (pre.length + 1) := by omega
    rw [List.cons_append, findNameIndexFrom, if_neg hn, ih (i + 1) hrest, List.length_cons,
      harith]

/-- The loop of `findNameIndex` fails when no node is the scalar "name". -/
theorem findNameIndexFrom_of_no_name (nodes : List yaml.Node) (i : Nat)
    (h : ∀ n ∈ nodes, ¬ (n.Kind = yaml.Kind.ScalarNode ∧ n.Value = "name")) :
    findNameIndexFrom nodes i = .error "name field not found" := by
  induction nodes generalizing i with
  | nil => rfl
  | cons n rest ih =>
    have hn := h n (List.mem_cons_self _ _)
    simp only [findNameIndexFrom, hn, if_false]
    exact ih (i + 1) (fun m hm => h m (List.mem_cons_of_mem n hm))

/-- `getName` returns the value after the first scalar "name" of the child
list. -/
theorem getName_of_first_name (configNode key value : yaml.Node) (pre rest : List yaml.Node)
    (hcontent : configNode.Content = pre ++ key :: value :: rest)
    (hpre : ∀ n ∈ pre, ¬ (n.Kind = yaml.Kind.ScalarNode ∧ n.Value = "name"))
    (hkey : key.Kind = yaml.Kind.ScalarNode ∧ key.Value = "name") :
    getName configNode = .ok value.Value := by
  have hget := getElem?_after_prefix pre rest key value
  simp only [getName_eq, findNameIndex, hcontent,
    findNameIndexFrom_append pre (value :: rest) key 0 hpre hkey, hget]

/-- `lintStep` checks the value after the first scalar "name" of the step's
child list. -/
theorem lintStep_of_first_name (stepNode key value : yaml.Node) (pre rest : List yaml.Node)
    (out : List Violation)
    (hcontent : stepNode.Content = pre ++ key :: value :: rest)
    (hpre : ∀ n ∈ pre, ¬ (n.Kind = yaml.Kind.ScalarNode ∧ n.Value = "name"))
    (hkey : key.Kind = yaml.Kind.ScalarNode ∧ key.Value = "name") :
    lintStep stepNode out =
      if startsWithEmoji value.Value = true then .returned (out, none)
      else .returned (out ++ [noEmojiViolation Step value.Value], none) := by
  have hget := getElem?_after_prefix pre rest key value
  simp only [lintStep, findNameIndex, hcontent,
    findNameIndexFrom_append pre (value :: rest) key 0 hpre hkey, hget]
  cases startsWithEmoji value.Value <;> simp [noEmojiViolation]

/-- `lintWorkflowName` appends the missing-name violation when no child of
the root mapping is the scalar "name". -/
theorem lintWorkflowName_of_no_name (workflowRoot : yaml.Node) (out : List Violation)
    (h : ∀ n ∈ workflowRoot.Content, ¬ (n.Kind = yaml.Kind.ScalarNode ∧ n.Value = "name")) :
    lintWorkflowName workflowRoot out = out ++ [missingNameViolation Workflow "workflow"] := by
  simp only [lintWorkflowName, getName_eq, findNameIndex,
    findNameIndexFrom_of_no_name workflowRoot.Content 0 h, missingNameViolation]

/-- A document with one job whose workflow, job and step names all fail the
predicate, and whose job name is not the text "steps", yields the workflow
violation, the job violation and the step violations in step order. -/
theorem LintWorkflow_single_job_noncompliant (w j : String) (key : yaml.Node)
    (steps : List String)
    (hw : startsWithEmoji w = false) (hj : startsWithEmoji j = false)
    (hsteps : ∀ s ∈ steps, startsWithEmoji s = false) (hne : j ≠ "steps") :
    LintWorkflow (workflowDocument w [{ key := key, name := j, steps := steps }]) =
      .returned (noEmojiViolation Workflow w :: noEmojiViolation Job key.Value ::
        steps.map (noEmojiViolation Step), none) := by
  have hname : getName (mappingNode [scalarNode "name", scalarNode w, scalarNode "jobs",
      mappingNode (jobsEntries [{ key := key, name := j, steps := steps }])]) = .ok w := by
    simp [getName_eq, mappingNode, scalarNode, findNameIndex, findNameIndexFrom]
  have hjobsNode : findJobsNode (mappingNode [scalarNode "name", scalarNode w, scalarNode "jobs",
      mappingNode (jobsEntries [{ key := key, name := j, steps := steps }])]) =
      .ok (mappingNode (jobsEntries [{ key := key, name := j, steps := steps }])) := by
    simp [findJobsNode, findJobsNodeLoop, mappingNode, scalarNode]
  have hkind : (mappingNode [scalarNode "name", scalarNode w, scalarNode "jobs",
      mappingNode (jobsEntries [{ key := key, name := j, steps := steps }])]).Kind =
      yaml.Kind.MappingNode := rfl
  have hfilter : steps.filter (fun s => !startsWithEmoji s) = steps := by
    rw [List.filter_eq_self]
    intro s hmem
    simp [hsteps s hmem]
  have hlint : lintJobs (mappingNode (jobsEntries [{ key := key, name := j, steps := steps }]))
      [noEmojiViolation Workflow w] =
      .returned (noEmojiViolation Workflow w :: noEmojiViolation Job key.Value ::
        steps.map (noEmojiViolation Step), none) := by
    simp [lintJobs, mappingNode, yamlKeyValuePairSize, jobsEntries, lintJobsLoop,
      getName_jobConfigNamed, hj, lintSteps_jobConfigNamed j steps _ hne,
      lintStepsLoop_stepNamed, hfilter, noEmojiViolation]
  simp [LintWorkflow, workflowDocument, documentNode, lintWorkflowName, hname, hw, hjobsNode,
    hkind]
  rw [show ({ Type_ := Workflow, Identifier := w, Msg := msgNoEmoji } : Violation) =
    noEmojiViolation Workflow w from rfl, hlint]

/-! ### Key lookup of the jobs section -/

/-- `findJobsNode` is the specification's key lookup of "jobs". -/
theorem findJobsNodeLoop_eq_ok_iff :
    ∀ content : List yaml.Node, ∀ v : yaml.Node,
      findJobsNodeLoop content = .ok v ↔ lookupKey "jobs" content = some v
  | [], v => by simp [findJobsNodeLoop, lookupKey]
  | [key], v => by
    by_cases hk : key.Kind = yaml.Kind.ScalarNode ∧ key.Value = "jobs" <;>
      simp [findJobsNodeLoop, lookupKey, hk]
  | key :: value :: rest, v => by
    by_cases hk : key.Kind = yaml.Kind.ScalarNode ∧ key.Value = "jobs"
    · simp [findJobsNodeLoop, lookupKey, hk]
    · simp only [findJobsNodeLoop, lookupKey, hk, if_false]
      exact findJobsNodeLoop_eq_ok_iff rest v

/-! ### The functions only append to `out` -/

@[simp] theorem Outcome.prepend_nil (r : Outcome (List Violation × Option String)) :
    r.prepend [] = r := by
  rcases r with ⟨vs, err⟩ | _ <;> simp [Outcome.prepend]

@[simp] theorem Outcome.prepend_returned (out vs : List Violation) (err : Option String) :
    (Outcome.returned (vs, err)).prepend out = .returned (out ++ vs, err) := rfl

@[simp] theorem Outcome.prepend_indexOutOfRange (out : List Violation) :
    (Outcome.indexOutOfRange : Outcome (List Violation × Option String)).prepend out =
      .indexOutOfRange := rfl

theorem Outcome.prepend_prepend (a b : List Violation)
    (r : Outcome (List Violation × Option String)) :
    (r.prepend b).prepend a = r.prepend (a ++ b) := by
  rcases r with ⟨vs, err⟩ | _ <;> simp [Outcome.prepend]

theorem lintStep_frame (step : yaml.Node) (out : List Violation) :
    lintStep step out = (lintStep step []).prepend out := by
  unfold lintStep
  cases findNameIndex step.Content with
  | error e => simp [Outcome.prepend]
  | ok index =>
    cases h : step.Content[index + 1]? with
    | none => simp [Outcome.prepend, h]
    | some nameNode =>
      cases hs : startsWithEmoji nameNode.Value <;> simp [Outcome.prepend, h, hs]

theorem lintStepsLoop_frame (steps : List yaml.Node) (out : List Violation) :
    lintStepsLoop steps out = (lintStepsLoop steps []).prepend out := by
  induction steps generalizing out with
  | nil => simp [lintStepsLoop, Outcome.prepend]
  | cons step rest ih =>
    rw [lintStepsLoop, lintStepsLoop, lintStep_frame step out]
    rcases h : lintStep step [] with ⟨vs, _ | err⟩ | _
    · simp only [Outcome.prepend_returned]
      rw [ih (out ++ vs), ih vs, Outcome.prepend_prepend]
    · simp [Outcome.prepend]
    · simp [Outcome.prepend]

theorem lintSteps_frame (stepsNode : yaml.Node) (out : List Violation) :
    lintSteps stepsNode out = (lintSteps stepsNode []).prepend out := by
  unfold lintSteps
  cases findStepsIndex stepsNode.Content with
  | none => simp [Outcome.prepend]
  | some index =>
    by_cases hlen : stepsNode.Content.length < index + yamlKeyValuePairSize
    · simp [hlen, Outcome.prepend]
    · simp only [hlen, if_false]
      cases h : stepsNode.Content[index + 1]? with
      | none => simp [Outcome.prepend, h]
      | some steps =>
        simp only [h]
        exact lintStepsLoop_frame steps.Content out

theorem lintJobsLoop_frame :
    ∀ (content : List yaml.Node) (out : List Violation),
      lintJobsLoop content out = (lintJobsLoop content []).prepend out
  | [], out => by simp [lintJobsLoop, Outcome.prepend]
  | [_], out => by simp [lintJobsLoop, Outcome.prepend]
  | key :: jobConfig :: rest, out => by
    rw [lintJobsLoop, lintJobsLoop]
    cases hname : getName jobConfig with
    | error e =>
      simp only [List.nil_append]
      rw [lintJobsLoop_frame rest (out ++ _), lintJobsLoop_frame rest [_],
        Outcome.prepend_prepend]
    | ok name =>
      simp only [List.nil_append]
      cases hs : startsWithEmoji name
      · simp only [Bool.not_false, if_true]
        rw [lintSteps_frame jobConfig (out ++ _), lintSteps_frame jobConfig [_]]
        rcases h : lintSteps jobConfig [] with ⟨vs, _ | err⟩ | _
        · simp only [Outcome.prepend_returned]
          rw [lintJobsLoop_frame rest (out ++ _ ++ vs), lintJobsLoop_frame rest (_ ++ vs),
            Outcome.prepend_prepend]
          simp
        · simp [Outcome.prepend]
        · simp [Outcome.prepend]
      · simp only [Bool.not_true, Bool.false_eq_true, if_false]
        rw [lintSteps_frame jobConfig out]
        rcases h : lintSteps jobConfig [] with ⟨vs, _ | err⟩ | _
        · simp only [Outcome.prepend_returned, List.nil_append]
          rw [lintJobsLoop_frame rest (out ++ vs), lintJobsLoop_frame rest vs,
            Outcome.prepend_prepend]
        · simp [Outcome.prepend]
        · simp [Outcome.prepend]

theorem lintJobs_frame (jobsNode : yaml.Node) (out : List Violation) :
    lintJobs jobsNode out = (lintJobs jobsNode []).prepend out := by
  unfold lintJobs
  by_cases h : jobsNode.Content.length % yamlKeyValuePairSize ≠ 0
  · simp [h, Outcome.prepend]
  · simp only [h, if_false]
    exact lintJobsLoop_frame jobsNode.Content out

/-! ### The violations appended by the loops, piece by piece -/

theorem Outcome.prepend_eq_returned (out vs : List Violation) (err : Option String)
    (r : Outcome (List Violation × Option String))
    (h : r.prepend out = .returned (vs, err)) :
    ∃ rest, r = .returned (rest, err) ∧ vs = out ++ rest := by
  rcases r with ⟨rest, e⟩ | _
  · simp only [Outcome.prepend_returned, Outcome.returned.injEq, Prod.mk.injEq] at h
    exact ⟨rest, by rw [h.2], h.1.symm⟩
  · simp at h

/-- What `lintStep` appends for a step is that step's output. -/
theorem stepOutput_of_lintStep (step : yaml.Node) (vs : List Violation) (err : Option String)
    (h : lintStep step [] = .returned (vs, err)) : StepOutput step vs := by
  unfold lintStep at h
  cases hidx : findNameIndex step.Content with
  | error e =>
    simp only [hidx, Outcome.returned.injEq, Prod.mk.injEq] at h
    rw [← h.1]
    exact ⟨by simp, by simp⟩
  | ok index =>
    cases hget : step.Content[index + 1]? with
    | none => simp [hidx, hget] at h
    | some nameNode =>
      have hmem : nameNode ∈ step.Content := List.getElem?_mem hget
      cases hs : startsWithEmoji nameNode.Value
      · simp only [hidx, hget, hs, Bool.not_false, if_true, List.nil_append,
          Outcome.returned.injEq, Prod.mk.injEq] at h
        rw [← h.1]
        refine ⟨by simp, ?_⟩
        intro v hv
        rw [List.mem_singleton] at hv
        subst hv
        exact ⟨rfl, nameNode, hmem, rfl⟩
      · simp only [hidx, hget, hs, Bool.not_true, Bool.false_eq_true, if_false,
          Outcome.returned.injEq, Prod.mk.injEq] at h
        rw [← h.1]
        exact ⟨by simp, by simp⟩

/-- The loop of `lintSteps` appends the outputs of the steps in step order. -/
theorem lintStepsLoop_parts (steps : List yaml.Node) (vs : List Violation)
    (h : lintStepsLoop steps [] = .returned (vs, none)) :
    ∃ parts : List (List Violation), vs = parts.flatten ∧ List.Forall₂ StepOutput steps parts := by
  induction steps generalizing vs with
  | nil =>
    simp only [lintStepsLoop, Outcome.returned.injEq, Prod.mk.injEq, and_true] at h
    exact ⟨[], by simp [← h], List.Forall₂.nil⟩
  | cons step rest ih =>
    rw [lintStepsLoop] at h
    rcases hstep : lintStep step [] with ⟨v1, _ | err⟩ | _
    · simp only [hstep] at h
      rw [lintStepsLoop_frame] at h
      obtain ⟨vrest, hrest, hvs⟩ := Outcome.prepend_eq_returned _ _ _ _ h
      obtain ⟨parts, hparts, hall⟩ := ih vrest hrest
      exact ⟨v1 :: parts, by simp [hvs, hparts],
        List.Forall₂.cons (stepOutput_of_lintStep step v1 none hstep) hall⟩
    · simp [hstep] at h
    · simp [hstep] at h

/-- `lintSteps` appends the outputs, in order, of the steps it iterates: the
children of one child of the configuration, or nothing. -/
theorem lintSteps_parts (config : yaml.Node) (vs : List Violation)
    (h : lintSteps config [] = .returned (vs, none)) :
    ∃ (steps : List yaml.Node) (parts : List (List Violation)),
      (steps = [] ∨ ∃ seq ∈ config.Content, steps = seq.Content) ∧
      vs = parts.flatten ∧ List.Forall₂ StepOutput steps parts := by
  unfold lintSteps at h
  cases hidx : findStepsIndex config.Content with
  | none =>
    simp only [hidx, Outcome.returned.injEq, Prod.mk.injEq, and_true] at h
    exact ⟨[], [], Or.inl rfl, by simp [← h], List.Forall₂.nil⟩
  | some index =>
    by_cases hlen : config.Content.length < index + yamlKeyValuePairSize
    · simp [hidx, hlen] at h
    · cases hget : config.Content[index + 1]? with
      | none => simp [hidx, hlen, hget] at h
      | some seq =>
        simp only [hidx, hlen, if_false, hget] at h
        obtain ⟨parts, hparts, hall⟩ := lintStepsLoop_parts seq.Content vs h
        exact ⟨seq.Content, parts, Or.inr ⟨seq, List.getElem?_mem hget, rfl⟩, hparts, hall⟩

/-- One turn of the loop of `lintJobs` appends the output of that job, and the
loop goes on with the jobs after it. -/
theorem lintJobsLoop_cons_parts (key config : yaml.Node) (rest : List yaml.Node)
    (vs : List Violation)
    (h : lintJobsLoop (key :: config :: rest) [] = .returned (vs, none)) :
    ∃ part vrest, JobOutput key config part ∧
      lintJobsLoop rest [] = .returned (vrest, none) ∧ vs = part ++ vrest := by
  rw [lintJobsLoop] at h
  cases hname : getName config with
  | error e =>
    simp only [hname, List.nil_append] at h
    rw [lintJobsLoop_frame] at h
    obtain ⟨vrest, hrest, hvs⟩ := Outcome.prepend_eq_returned _ _ _ _ h
    refine ⟨_, vrest, ⟨[missingNameViolation Job key.Value], [], [], ?_, by simp, ?_,
      Or.inl rfl, List.Forall₂.nil⟩, hrest, hvs⟩
    · simp [missingNameViolation]
    · intro v hv
      rw [List.mem_singleton] at hv
      subst hv
      exact ⟨rfl, rfl⟩
  | ok name =>
    simp only [hname, List.nil_append] at h
    rw [lintSteps_frame] at h
    rcases hsteps : lintSteps config [] with ⟨vsteps, _ | err⟩ | _
    · simp only [hsteps, Outcome.prepend_returned] at h
      rw [lintJobsLoop_frame] at h
      obtain ⟨vrest, hrest, hvs⟩ := Outcome.prepend_eq_returned _ _ _ _ h
      obtain ⟨steps, parts, hsrc, hparts, hall⟩ := lintSteps_parts config vsteps hsteps
      refine ⟨_, vrest, ⟨(if !startsWithEmoji name then [noEmojiViolation Job key.Value] else []),
        steps, parts, rfl, ?_, ?_, hsrc, hall⟩, hrest, ?_⟩
      · cases startsWithEmoji name <;> simp
      · intro v hv
        cases hs : startsWithEmoji name
        · simp only [hs, Bool.not_false, if_true, List.mem_singleton] at hv
          subst hv
          exact ⟨rfl, rfl⟩
        · simp [hs] at hv
      · rw [hvs, ← hparts]
        cases hs : startsWithEmoji name <;> simp [noEmojiViolation]
    · simp [hsteps] at h
    · simp [hsteps] at h

/-- The loop of `lintJobs` appends the outputs of the jobs in the order of
the jobs mapping. -/
theorem lintJobsLoop_parts :
    ∀ (content : List yaml.Node) (vs : List Violation),
      lintJobsLoop content [] = .returned (vs, none) →
      ∃ parts : List (List Violation), vs = parts.flatten ∧
        List.Forall₂ (fun kc part => JobOutput kc.1 kc.2 part) (mappingPairs content) parts
  | [], vs, h => by
    simp only [lintJobsLoop, Outcome.returned.injEq, Prod.mk.injEq, and_true] at h
    exact ⟨[], by simp [← h], by simp [mappingPairs]⟩
  | [_], vs, h => by simp [lintJobsLoop] at h
  | key :: config :: rest, vs, h => by
    obtain ⟨part, vrest, hjob, hrest, hvs⟩ := lintJobsLoop_cons_parts key config rest vs h
    obtain ⟨parts, hparts, hall⟩ := lintJobsLoop_parts rest vrest hrest
    exact ⟨part :: parts, by simp [hvs, hparts], by
      simp only [mappingPairs]
      exact List.Forall₂.cons hjob hall⟩

/-- `lintWorkflowName` appends at most one violation, of type Workflow. -/
theorem lintWorkflowName_nil (workflowRoot : yaml.Node) :
    (lintWorkflowName workflowRoot []).length ≤ 1 ∧
    ∀ v ∈ lintWorkflowName workflowRoot [], v.Type_ = Workflow := by
  unfold lintWorkflowName
  cases getName workflowRoot with
  | error e => simp
  | ok name => cases hs : startsWithEmoji name <;> simp [hs]

/-- A successful `LintWorkflow` is the workflow output followed by the output
of `lintJobsLoop` on the children of the jobs node. -/
theorem LintWorkflow_eq_returned (root : yaml.Node) (vs : List Violation)
    (h : LintWorkflow root = .returned (vs, none)) :
    ∃ (workflowRoot jobsNode : yaml.Node) (jobsPart : List Violation),
      root.Content.head? = some workflowRoot ∧
      lookupKey "jobs" workflowRoot.Content = some jobsNode ∧
      lintJobsLoop jobsNode.Content [] = .returned (jobsPart, none) ∧
      vs = lintWorkflowName workflowRoot [] ++ jobsPart := by
  unfold LintWorkflow at h
  by_cases hdoc : root.Kind = yaml.Kind.DocumentNode
  · cases hroot : root.Content with
    | nil => simp [hdoc, hroot] at h
    | cons workflowRoot others =>
      simp only [hdoc, hroot, ne_eq, not_true_eq_false, List.length_cons, Nat.add_one_ne_zero,
        or_self, if_false, List.getElem?_cons_zero] at h
      by_cases hmap : workflowRoot.Kind = yaml.Kind.MappingNode
      · simp only [hmap, not_true_eq_false, if_false] at h
        cases hjobs : findJobsNode workflowRoot with
        | error e => simp [hjobs] at h
        | ok jobsNode =>
          simp only [hjobs] at h
          rw [lintJobs_frame] at h
          rcases hlint : lintJobs jobsNode [] with ⟨jobsPart, _ | err⟩ | _
          · simp only [hlint, Outcome.prepend_returned, Outcome.returned.injEq,
              Prod.mk.injEq, and_true] at h
            refine ⟨workflowRoot, jobsNode, jobsPart, rfl,
              (findJobsNodeLoop_eq_ok_iff _ _).mp hjobs, ?_, h.symm⟩
            unfold lintJobs at hlint
            by_cases heven : jobsNode.Content.length % yamlKeyValuePairSize ≠ 0
            · simp [heven] at hlint
            · simpa only [heven, if_false] using hlint
          · simp [hlint] at h
          · simp [hlint] at h
      · simp [hmap] at h
  · simp [hdoc] at h

/-! ### The workflow name and the jobs section do not interact -/

/-- A property of every piece of related lists holds of the concatenation. -/
theorem forall2_flatten_mem {α : Type} {R : α → List Violation → Prop} {P : Violation → Prop}
    {xs : List α} {parts : List (List Violation)} (hall : List.Forall₂ R xs parts)
    (hP : ∀ x part, R x part → ∀ v ∈ part, P v) : ∀ v ∈ parts.flatten, P v := by
  induction hall with
  | nil => simp
  | cons hhead _ ih =>
    intro v hv
    simp only [List.flatten_cons, List.mem_append] at hv
    rcases hv with hv | hv
    · exact hP _ _ hhead v hv
    · exact ih v hv

/-- The violations of one job are Job and Step violations. -/
theorem JobOutput.types {key config : yaml.Node} {vs : List Violation}
    (h : JobOutput key config vs) : ∀ v ∈ vs, v.Type_ = Job ∨ v.Type_ = Step := by
  obtain ⟨jobPart, steps, stepParts, hvs, _, hjob, _, hall⟩ := h
  have hsteps : ∀ v ∈ stepParts.flatten, v.Type_ = Step :=
    forall2_flatten_mem hall (fun _ _ hout v hv => (hout.2 v hv).1)
  intro v hv
  rw [hvs, List.mem_append] at hv
  rcases hv with hv | hv
  · exact Or.inl (hjob v hv).1
  · exact Or.inr (hsteps v hv)

/-- The loop of `lintJobs` appends Job and Step violations only. -/
theorem lintJobsLoop_types (content : List yaml.Node) (vs : List Violation)
    (h : lintJobsLoop content [] = .returned (vs, none)) :
    ∀ v ∈ vs, v.Type_ = Job ∨ v.Type_ = Step := by
  obtain ⟨parts, hparts, hall⟩ := lintJobsLoop_parts content vs h
  rw [hparts]
  exact forall2_flatten_mem hall (fun _ _ hout => hout.types)

theorem jobAndStepViolations_append (workflowPart jobsPart : List Violation)
    (hw : ∀ v ∈ workflowPart, v.Type_ = Workflow)
    (hj : ∀ v ∈ jobsPart, v.Type_ = Job ∨ v.Type_ = Step) :
    jobAndStepViolations (workflowPart ++ jobsPart) = jobsPart := by
  unfold jobAndStepViolations
  rw [List.filter_append]
  have h1 : workflowPart.filter (fun v => v.Type_ = Job ∨ v.Type_ = Step) = [] := by
    rw [List.filter_eq_nil_iff]
    intro v hv
    rw [hw v hv]
    decide
  have h2 : jobsPart.filter (fun v => v.Type_ = Job ∨ v.Type_ = Step) = jobsPart := by
    rw [List.filter_eq_self]
    intro v hv
    simpa using hj v hv
  rw [h1, h2, List.nil_append]

/-- After `lintWorkflowName`, the Job and Step violations of `LintWorkflow`
and its error are those of `lintJobs` on the empty list. -/
theorem lintJobs_jobAndStep (jobsNode : yaml.Node) (workflowPart : List Violation)
    (hw : ∀ v ∈ workflowPart, v.Type_ = Workflow) :
    (match lintJobs jobsNode workflowPart with
      | .indexOutOfRange => Outcome.indexOutOfRange
      | .returned (_, some err) => .returned ([], some err)
      | .returned (violations, none) => .returned (violations, none)).jobAndStep =
    (match lintJobs jobsNode [] with
      | .indexOutOfRange => Outcome.indexOutOfRange
      | .returned (_, some err) => .returned ([], some err)
      | .returned (violations, none) => .returned (violations, none)) := by
  rw [lintJobs_frame jobsNode workflowPart]
  rcases hlint : lintJobs jobsNode [] with ⟨jobsPart, _ | err⟩ | _
  · have htypes : ∀ v ∈ jobsPart, v.Type_ = Job ∨ v.Type_ = Step := by
      unfold lintJobs at hlint
      by_cases heven : jobsNode.Content.length % yamlKeyValuePairSize ≠ 0
      · simp [heven] at hlint
      · simp only [heven, if_false] at hlint
        exact lintJobsLoop_types _ _ hlint
    simp only [Outcome.prepend_returned, Outcome.jobAndStep,
      jobAndStepViolations_append workflowPart jobsPart hw htypes]
  · simp [Outcome.jobAndStep, jobAndStepViolations]
  · simp [Outcome.jobAndStep]

/-- The Job and Step part of the result of `LintWorkflow` depends on the
children of the root mapping only through the jobs lookup. -/
theorem LintWorkflow_jobAndStep_congr (rootKind mapKind : yaml.Kind) (dv mv : String)
    (others content1 content2 : List yaml.Node)
    (h : findJobsNodeLoop content1 = findJobsNodeLoop content2) :
    (LintWorkflow (.mk rootKind dv (.mk mapKind mv content1 :: others))).jobAndStep =
      (LintWorkflow (.mk rootKind dv (.mk mapKind mv content2 :: others))).jobAndStep := by
  unfold LintWorkflow
  by_cases hdoc : rootKind = yaml.Kind.DocumentNode
  · by_cases hmap : mapKind = yaml.Kind.MappingNode
    · simp only [yaml.Node.Kind_mk, yaml.Node.Content_mk, hdoc, hmap, ne_eq, not_true_eq_false,
        List.length_cons, Nat.add_one_ne_zero, or_self, if_false, List.getElem?_cons_zero,
        findJobsNode, h]
      cases findJobsNodeLoop content2 with
      | error e => rfl
      | ok jobsNode =>
        simp only []
        rw [lintJobs_jobAndStep jobsNode _ (lintWorkflowName_nil _).2,
          lintJobs_jobAndStep jobsNode _ (lintWorkflowName_nil _).2]
    · simp [hdoc, hmap]
  · simp [hdoc]

/-- The jobs lookup passes over an entry whose key is "name". -/
theorem findJobsNodeLoop_skip_name (key value : yaml.Node) (post : List yaml.Node)
    (hkey : key.Kind = yaml.Kind.ScalarNode ∧ key.Value = "name") :
    ∀ pre : List yaml.Node, pre.length % 2 = 0 →
      findJobsNodeLoop (pre ++ key :: value :: post) = findJobsNodeLoop (pre ++ post)
  | [], _ => by
    have hne : ¬ (key.Kind = yaml.Kind.ScalarNode ∧ key.Value = "jobs") := by
      rw [hkey.2]; simp
    simp only [List.nil_append, findJobsNodeLoop, hne, if_false]
  | [_], h => by simp at h
  | a :: b :: pre, h => by
    have hpre : pre.length % 2 = 0 := by
      simp only [List.length_cons] at h; omega
    have ih := findJobsNodeLoop_skip_name key value post hkey pre hpre
    simp only [List.cons_append, findJobsNodeLoop, List.append_eq, ih]

/-- The loop of `findStepsIndex` passes over nodes that are not the scalar
"steps" and stops at the first one that is. -/
theorem findStepsIndexFrom_append (pre rest : List yaml.Node) (key : yaml.Node) (i : Nat)
    (hpre : ∀ n ∈ pre, ¬ (n.Kind = yaml.Kind.ScalarNode ∧ n.Value = "steps"))
    (hkey : key.Kind = yaml.Kind.ScalarNode ∧ key.Value = "steps") :
    findStepsIndexFrom (pre ++ key :: rest) i = some (i + pre.length) := by
  induction pre generalizing i with
  | nil => simp only [List.nil_append, findStepsIndexFrom, hkey, and_self, if_true,
      List.length_nil, Nat.add_zero]
  | cons n pre ih =>
    have hn := hpre n (List.mem_cons_self _ _)
    have hrest := fun m hm => hpre m (List.mem_cons_of_mem n hm)
    have harith : i + 1 + pre.length = i + (pre.length + 1) := by omega
    rw [List.cons_append, findStepsIndexFrom, if_neg hn, ih (i + 1) hrest, List.length_cons,
      harith]

/-- The loop of `findStepsIndex` finds nothing when no node is the scalar
"steps". -/
theorem findStepsIndexFrom_of_no_steps (nodes : List yaml.Node) (i : Nat)
    (h : ∀ n ∈ nodes, ¬ (n.Kind = yaml.Kind.ScalarNode ∧ n.Value = "steps")) :
    findStepsIndexFrom nodes i = none := by
  induction nodes generalizing i with
  | nil => rfl
  | cons n rest ih =>
    have hn := h n (List.mem_cons_self _ _)
    simp only [findStepsIndexFrom, hn, if_false]
    exact ih (i + 1) (fun m hm => h m (List.mem_cons_of_mem n hm))

/-- `lintSteps` lints the children of the node after the first scalar
"steps", whatever the Kind of that node. -/
theorem lintSteps_of_first_steps (config stepsKey value : yaml.Node) (pre post : List yaml.Node)
    (out : List Violation)
    (hcontent : config.Content = pre ++ stepsKey :: value :: post)
    (hpre : ∀ n ∈ pre, ¬ (n.Kind = yaml.Kind.ScalarNode ∧ n.Value = "steps"))
    (hkey : stepsKey.Kind = yaml.Kind.ScalarNode ∧ stepsKey.Value = "steps") :
    lintSteps config out = lintStepsLoop value.Content out := by
  have hget := getElem?_after_prefix pre post stepsKey value
  have hlen : ¬ (pre ++ stepsKey :: value :: post).length < 0 + pre.length + 2 := by
    simp only [List.length_append, List.length_cons]; omega
  simp only [lintSteps, findStepsIndex, hcontent,
    findStepsIndexFrom_append pre (value :: post) stepsKey 0 hpre hkey, yamlKeyValuePairSize,
    hlen, if_false, hget]

/-! ### One job at a time -/

/-- The loop of `lintJobs` on a first job and the jobs after it, in terms of
the run on the first job alone. -/
theorem lintJobsLoop_cons (key config : yaml.Node) (rest : List yaml.Node)
    (out : List Violation) :
    lintJobsLoop (key :: config :: rest) out =
      match lintJobsLoop [key, config] [] with
      | .returned (part, none) => lintJobsLoop rest (out ++ part)
      | .returned (part, some err) => .returned (out ++ part, some err)
      | .indexOutOfRange => .indexOutOfRange := by
  rw [lintJobsLoop, lintJobsLoop]
  cases hname : getName config with
  | error e => simp [lintJobsLoop]
  | ok name =>
    simp only [List.nil_append]
    rw [lintSteps_frame config (if (!startsWithEmoji name) = true then _ else out),
      lintSteps_frame config (if (!startsWithEmoji name) = true then _ else [])]
    rcases hsteps : lintSteps config [] with ⟨vsteps, _ | err⟩ | _
    · cases hs : startsWithEmoji name <;> simp [lintJobsLoop]
    · cases hs : startsWithEmoji name <;> simp
    · simp

/-- Jobs that are linted without error can be split off the front of the
jobs list. -/
theorem lintJobsLoop_append :
    ∀ (earlier rest : List yaml.Node) (out part : List Violation),
      lintJobsLoop earlier [] = .returned (part, none) →
      lintJobsLoop (earlier ++ rest) out = lintJobsLoop rest (out ++ part)
  | [], rest, out, part, h => by
    simp only [lintJobsLoop, Outcome.returned.injEq, Prod.mk.injEq, and_true] at h
    simp [← h]
  | [_], rest, out, part, h => by simp [lintJobsLoop] at h
  | key :: config :: earlier, rest, out, part, h => by
    rw [lintJobsLoop_cons] at h
    rw [List.cons_append, List.cons_append, lintJobsLoop_cons]
    rcases hhead : lintJobsLoop [key, config] [] with ⟨p1, _ | err⟩ | _
    · simp only [hhead, List.nil_append] at h ⊢
      rw [lintJobsLoop_frame] at h
      obtain ⟨p2, hp2, hpart⟩ := Outcome.prepend_eq_returned _ _ _ _ h
      rw [lintJobsLoop_append earlier rest (out ++ p1) p2 hp2, hpart, List.append_assoc]
    · simp [hhead] at h
    · simp [hhead] at h

/-- Jobs that are linted without error come in key/configuration pairs. -/
theorem lintJobsLoop_returned_even :
    ∀ (content : List yaml.Node) (part : List Violation),
      lintJobsLoop content [] = .returned (part, none) → content.length % 2 = 0
  | [], _, _ => rfl
  | [_], _, h => by simp [lintJobsLoop] at h
  | key :: config :: rest, part, h => by
    obtain ⟨_, vrest, _, hrest, _⟩ := lintJobsLoop_cons_parts key config rest part h
    have := lintJobsLoop_returned_even rest vrest hrest
    simp only [List.length_cons]
    omega

/-- `lintSteps` returns its error when the first scalar "steps" is the last
child of the configuration. -/
theorem lintSteps_of_last_steps (config stepsKey : yaml.Node) (pre : List yaml.Node)
    (out : List Violation)
    (hcontent : config.Content = pre ++ [stepsKey])
    (hpre : ∀ n ∈ pre, ¬ (n.Kind = yaml.Kind.ScalarNode ∧ n.Value = "steps"))
    (hkey : stepsKey.Kind = yaml.Kind.ScalarNode ∧ stepsKey.Value = "steps") :
    lintSteps config out = .returned (out,
      some "steps node content is not even. Every step must have configuration set") := by
  have hlen : (pre ++ [stepsKey]).length < 0 + pre.length + 2 := by
    simp only [List.length_append, List.length_cons, List.length_nil]; omega
  simp only [lintSteps, findStepsIndex, hcontent,
    findStepsIndexFrom_append pre [] stepsKey 0 hpre hkey, yamlKeyValuePairSize, hlen, if_true]

/-- `lintSteps` returns no error and appends nothing when no child of the
configuration is the scalar "steps". -/
theorem lintSteps_of_no_steps (config : yaml.Node) (out : List Violation)
    (h : ∀ n ∈ config.Content, ¬ (n.Kind = yaml.Kind.ScalarNode ∧ n.Value = "steps")) :
    lintSteps config out = .returned (out, none) := by
  simp only [lintSteps, findStepsIndex, findStepsIndexFrom_of_no_steps config.Content 0 h]

/-! ### Where the index-out-of-range abort can come from -/

/-- A successful `findNameIndex` splits the list at the first scalar "name". -/
theorem findNameIndexFrom_eq_ok (nodes : List yaml.Node) (i j : Nat)
    (h : findNameIndexFrom nodes i = .ok j) :
    ∃ (pre : List yaml.Node) (key : yaml.Node) (rest : List yaml.Node),
      nodes = pre ++ key :: rest ∧
      (∀ n ∈ pre, ¬ (n.Kind = yaml.Kind.ScalarNode ∧ n.Value = "name")) ∧
      (key.Kind = yaml.Kind.ScalarNode ∧ key.Value = "name") ∧ j = i + pre.length := by
  induction nodes generalizing i with
  | nil => simp [findNameIndexFrom] at h
  | cons n rest ih =>
    rw [findNameIndexFrom] at h
    by_cases hn : n.Kind = yaml.Kind.ScalarNode ∧ n.Value = "name"
    · rw [if_pos hn] at h
      have hj : i = j := by simpa using h
      exact ⟨[], n, rest, rfl, by simp, hn, by simp [hj]⟩
    · rw [if_neg hn] at h
      obtain ⟨pre, key, rest2, hsplit, hpre, hkey, hj⟩ := ih (i + 1) h
      refine ⟨n :: pre, key, rest2, by rw [hsplit, List.cons_append], ?_, hkey, ?_⟩
      · intro m hm
        rcases List.mem_cons.mp hm with rfl | hm
        · exact hn
        · exact hpre m hm
      · rw [hj, List.length_cons]; omega

/-- `lintStep` aborts exactly when the first scalar "name" of the step is its
last child. -/
theorem lintStep_indexOutOfRange_iff (step : yaml.Node) (out : List Violation) :
    lintStep step out = .indexOutOfRange ↔
      ∃ (pre : List yaml.Node) (last : yaml.Node), step.Content = pre ++ [last] ∧
        (∀ n ∈ pre, ¬ (n.Kind = yaml.Kind.ScalarNode ∧ n.Value = "name")) ∧
        (last.Kind = yaml.Kind.ScalarNode ∧ last.Value = "name") := by
  constructor
  · intro h
    unfold lintStep at h
    cases hidx : findNameIndex step.Content with
    | error e => simp [hidx] at h
    | ok index =>
      obtain ⟨pre, key, rest, hsplit, hpre, hkey, hj⟩ :=
        findNameIndexFrom_eq_ok step.Content 0 index hidx
      cases rest with
      | nil => exact ⟨pre, key, hsplit, hpre, hkey⟩
      | cons value rest =>
        have hget := getElem?_after_prefix pre rest key value
        rw [← hsplit, ← hj] at hget
        cases hs : startsWithEmoji value.Value <;> simp [hidx, hget, hs] at h
  · rintro ⟨pre, last, hcontent, hpre, hlast⟩
    have hidx : findNameIndex step.Content = .ok (0 + pre.length) := by
      rw [findNameIndex, hcontent]
      exact findNameIndexFrom_append pre [] last 0 hpre hlast
    have hget : step.Content[0 + pre.length + 1]? = none := by
      rw [List.getElem?_eq_none_iff, hcontent]
      simp only [List.length_append, List.length_cons, List.length_nil]
      omega
    simp only [lintStep, hidx, hget]

/-- The loop of `lintSteps` aborts only when `lintStep` aborts on a step. -/
theorem lintStepsLoop_indexOutOfRange (steps : List yaml.Node) (out : List Violation)
    (h : lintStepsLoop steps out = .indexOutOfRange) :
    ∃ step ∈ steps, lintStep step [] = .indexOutOfRange := by
  induction steps generalizing out with
  | nil => simp [lintStepsLoop] at h
  | cons step rest ih =>
    rw [lintStepsLoop, lintStep_frame] at h
    rcases hstep : lintStep step [] with ⟨v1, _ | err⟩ | _
    · simp only [hstep, Outcome.prepend_returned] at h
      obtain ⟨s, hs, hpanic⟩ := ih _ h
      exact ⟨s, List.mem_cons_of_mem _ hs, hpanic⟩
    · simp [hstep] at h
    · exact ⟨step, List.mem_cons_self _ _, hstep⟩

/-- `lintSteps` aborts only when `lintStep` aborts on a step; its own access
`Content[index+1]` is within bounds. -/
theorem lintSteps_indexOutOfRange (config : yaml.Node) (out : List Violation)
    (h : lintSteps config out = .indexOutOfRange) :
    ∃ seq ∈ config.Content, ∃ step ∈ seq.Content, lintStep step [] = .indexOutOfRange := by
  unfold lintSteps at h
  cases hidx : findStepsIndex config.Content with
  | none => simp [hidx] at h
  | some index =>
    by_cases hlen : config.Content.length < index + yamlKeyValuePairSize
    · simp [hidx, hlen] at h
    · cases hget : config.Content[index + 1]? with
      | none =>
        rw [List.getElem?_eq_none_iff] at hget
        unfold yamlKeyValuePairSize at hlen
        omega
      | some seq =>
        simp only [hidx, hlen, if_false, hget] at h
        exact ⟨seq, List.getElem?_mem hget, lintStepsLoop_indexOutOfRange _ _ h⟩

/-- On a list of even length the loop of `lintJobs` aborts only when
`lintStep` aborts on a step; its own access `Content[i+1]` is within
bounds. -/
theorem lintJobsLoop_indexOutOfRange :
    ∀ (content : List yaml.Node) (out : List Violation), content.length % 2 = 0 →
      lintJobsLoop content out = .indexOutOfRange →
      ∃ config ∈ content, ∃ seq ∈ config.Content, ∃ step ∈ seq.Content,
        lintStep step [] = .indexOutOfRange
  | [], out, _, h => by simp [lintJobsLoop] at h
  | [_], out, heven, _ => by simp at heven
  | key :: config :: rest, out, heven, h => by
    have hrest : rest.length % 2 = 0 := by
      simp only [List.length_cons] at heven; omega
    have lift : (∃ c ∈ rest, ∃ seq ∈ c.Content, ∃ step ∈ seq.Content,
        lintStep step [] = .indexOutOfRange) →
        ∃ c ∈ key :: config :: rest, ∃ seq ∈ c.Content, ∃ step ∈ seq.Content,
          lintStep step [] = .indexOutOfRange := by
      rintro ⟨c, hc, hrest⟩
      exact ⟨c, List.mem_cons_of_mem _ (List.mem_cons_of_mem _ hc), hrest⟩
    rw [lintJobsLoop] at h
    cases hname : getName config with
    | error e =>
      simp only [hname] at h
      exact lift (lintJobsLoop_indexOutOfRange rest _ hrest h)
    | ok name =>
      simp only [hname] at h
      rw [lintSteps_frame] at h
      rcases hsteps : lintSteps config [] with ⟨v, _ | err⟩ | _
      · simp only [hsteps, Outcome.prepend_returned] at h
        exact lift (lintJobsLoop_indexOutOfRange rest _ hrest h)
      · simp [hsteps] at h
      · obtain ⟨seq, hseq, hstep⟩ := lintSteps_indexOutOfRange config _ hsteps
        exact ⟨config, List.mem_cons_of_mem _ (List.mem_cons_self _ _), seq, hseq, hstep⟩

/-- `LintWorkflow` aborts only on a step of the tree whose first scalar "name"
is its last child: the step is a child of a child of a child of the jobs node,
the value of the key "jobs" of the first child of the root.  Every other child
access is within bounds. -/
theorem LintWorkflow_indexOutOfRange (root : yaml.Node)
    (h : LintWorkflow root = .indexOutOfRange) :
    ∃ (workflowRoot jobsNode config seq step : yaml.Node) (pre : List yaml.Node)
      (last : yaml.Node),
      root.Content.head? = some workflowRoot ∧
      lookupKey "jobs" workflowRoot.Content = some jobsNode ∧
      config ∈ jobsNode.Content ∧ seq ∈ config.Content ∧ step ∈ seq.Content ∧
      step.Content = pre ++ [last] ∧
      (∀ n ∈ pre, ¬ (n.Kind = yaml.Kind.ScalarNode ∧ n.Value = "name")) ∧
      (last.Kind = yaml.Kind.ScalarNode ∧ last.Value = "name") := by
  unfold LintWorkflow at h
  by_cases hdoc : root.Kind = yaml.Kind.DocumentNode
  · cases hroot : root.Content with
    | nil => simp [hdoc, hroot] at h
    | cons workflowRoot others =>
      simp only [hdoc, hroot, ne_eq, not_true_eq_false, List.length_cons, Nat.add_one_ne_zero,
        or_self, if_false, List.getElem?_cons_zero] at h
      by_cases hmap : workflowRoot.Kind = yaml.Kind.MappingNode
      · simp only [hmap, not_true_eq_false, if_false] at h
        cases hjobs : findJobsNode workflowRoot with
        | error e => simp [hjobs] at h
        | ok jobsNode =>
          simp only [hjobs] at h
          rcases hlint : lintJobs jobsNode (lintWorkflowName workflowRoot [])
            with ⟨v, _ | err⟩ | _
          · simp [hlint] at h
          · simp [hlint] at h
          · unfold lintJobs at hlint
            by_cases heven : jobsNode.Content.length % yamlKeyValuePairSize ≠ 0
            · simp [heven] at hlint
            · simp only [heven, if_false] at hlint
              have heven2 : jobsNode.Content.length % 2 = 0 := by
                unfold yamlKeyValuePairSize at heven; omega
              obtain ⟨config, hconfig, seq, hseq, step, hstepmem, hstep⟩ :=
                lintJobsLoop_indexOutOfRange _ _ heven2 hlint
              obtain ⟨pre, last, hsplit, hpre, hlast⟩ :=
                (lintStep_indexOutOfRange_iff step []).mp hstep
              exact ⟨workflowRoot, jobsNode, config, seq, step, pre, last, rfl,
                (findJobsNodeLoop_eq_ok_iff _ _).mp hjobs, hconfig, hseq, hstepmem,
                hsplit, hpre, hlast⟩
      · simp [hmap] at h
  · simp [hdoc] at h

/-! ### The names that are reported -/

/-- The text "workflow" does not start with an emoji, and `lintWorkflowName`
reports no other name that does. -/
theorem lintWorkflowName_identifier (workflowRoot : yaml.Node) :
    ∀ v ∈ lintWorkflowName workflowRoot [], startsWithEmoji v.Identifier = false := by
  unfold lintWorkflowName
  cases getName workflowRoot with
  | error e =>
    intro v hv
    simp only [List.nil_append, List.mem_singleton] at hv
    subst hv
    decide
  | ok name =>
    cases hs : startsWithEmoji name
    · intro v hv
      simp only [hs, Bool.not_false, if_true, List.nil_append, List.mem_singleton] at hv
      subst hv
      exact hs
    · simp [hs]

/-- A violation that `lintStep` appends is a Step violation whose Identifier
fails the predicate. -/
theorem lintStep_identifier (step : yaml.Node) (vs : List Violation) (err : Option String)
    (h : lintStep step [] = .returned (vs, err)) :
    ∀ v ∈ vs, v.Type_ = Step ∧ startsWithEmoji v.Identifier = false := by
  unfold lintStep at h
  cases hidx : findNameIndex step.Content with
  | error e =>
    simp only [hidx, Outcome.returned.injEq, Prod.mk.injEq] at h
    simp [← h.1]
  | ok index =>
    cases hget : step.Content[index + 1]? with
    | none => simp [hidx, hget] at h
    | some nameNode =>
      cases hs : startsWithEmoji nameNode.Value
      · simp only [hidx, hget, hs, Bool.not_false, if_true, List.nil_append,
          Outcome.returned.injEq, Prod.mk.injEq] at h
        intro v hv
        rw [← h.1, List.mem_singleton] at hv
        subst hv
        exact ⟨rfl, hs⟩
      · simp only [hidx, hget, hs, Bool.not_true, Bool.false_eq_true, if_false,
          Outcome.returned.injEq, Prod.mk.injEq] at h
        simp [← h.1]

/-- The violations that the loop of `lintSteps` appends are Step violations
whose Identifier fails the predicate. -/
theorem lintStepsLoop_identifier (steps : List yaml.Node) (vs : List Violation)
    (h : lintStepsLoop steps [] = .returned (vs, none)) :
    ∀ v ∈ vs, v.Type_ = Step ∧ startsWithEmoji v.Identifier = false := by
  induction steps generalizing vs with
  | nil =>
    simp only [lintStepsLoop, Outcome.returned.injEq, Prod.mk.injEq, and_true] at h
    simp [← h]
  | cons step rest ih =>
    rw [lintStepsLoop] at h
    rcases hstep : lintStep step [] with ⟨v1, _ | err⟩ | _
    · simp only [hstep] at h
      rw [lintStepsLoop_frame] at h
      obtain ⟨vrest, hrest, hvs⟩ := Outcome.prepend_eq_returned _ _ _ _ h
      intro v hv
      rw [hvs, List.mem_append] at hv
      rcases hv with hv | hv
      · exact lintStep_identifier step v1 none hstep v hv
      · exact ih vrest hrest v hv
    · simp [hstep] at h
    · simp [hstep] at h

/-- The violations that `lintSteps` appends are Step violations whose
Identifier fails the predicate. -/
theorem lintSteps_identifier (config : yaml.Node) (vs : List Violation)
    (h : lintSteps config [] = .returned (vs, none)) :
    ∀ v ∈ vs, v.Type_ = Step ∧ startsWithEmoji v.Identifier = false := by
  unfold lintSteps at h
  cases hidx : findStepsIndex config.Content with
  | none =>
    simp only [hidx, Outcome.returned.injEq, Prod.mk.injEq, and_true] at h
    simp [← h]
  | some index =>
    by_cases hlen : config.Content.length < index + yamlKeyValuePairSize
    · simp [hidx, hlen] at h
    · cases hget : config.Content[index + 1]? with
      | none => simp [hidx, hlen, hget] at h
      | some seq =>
        simp only [hidx, hlen, if_false, hget] at h
        exact lintStepsLoop_identifier seq.Content vs h

/-- A violation that the loop of `lintJobs` appends is a Job violation, or a
Step violation whose Identifier fails the predicate. -/
theorem lintJobsLoop_identifier :
    ∀ (content : List yaml.Node) (vs : List Violation),
      lintJobsLoop content [] = .returned (vs, none) →
      ∀ v ∈ vs, v.Type_ = Job ∨ (v.Type_ = Step ∧ startsWithEmoji v.Identifier = false)
  | [], vs, h => by
    simp only [lintJobsLoop, Outcome.returned.injEq, Prod.mk.injEq, and_true] at h
    simp [← h]
  | [_], vs, h => by simp [lintJobsLoop] at h
  | key :: config :: rest, vs, h => by
    rw [lintJobsLoop] at h
    cases hname : getName config with
    | error e =>
      simp only [hname, List.nil_append] at h
      rw [lintJobsLoop_frame] at h
      obtain ⟨vrest, hrest, hvs⟩ := Outcome.prepend_eq_returned _ _ _ _ h
      intro v hv
      rw [hvs, List.mem_append, List.mem_singleton] at hv
      rcases hv with hv | hv
      · exact Or.inl (by rw [hv])
      · exact lintJobsLoop_identifier rest vrest hrest v hv
    | ok name =>
      simp only [hname, List.nil_append] at h
      rw [lintSteps_frame] at h
      rcases hsteps : lintSteps config [] with ⟨vsteps, _ | err⟩ | _
      · simp only [hsteps, Outcome.prepend_returned] at h
        rw [lintJobsLoop_frame] at h
        obtain ⟨vrest, hrest, hvs⟩ := Outcome.prepend_eq_returned _ _ _ _ h
        intro v hv
        rw [hvs, List.mem_append, List.mem_append] at hv
        rcases hv with (hv | hv) | hv
        · cases hs : startsWithEmoji name
          · simp only [hs, Bool.not_false, if_true, List.mem_singleton] at hv
            exact Or.inl (by rw [hv])
          · simp [hs] at hv
        · exact Or.inr (lintSteps_identifier config vsteps hsteps v hv)
        · exact lintJobsLoop_identifier rest vrest hrest v hv
      · simp [hsteps] at h
      · simp [hsteps] at h

/-! ## Theorems -/

/-- C1: `startsWithEmoji s` is true exactly when `s` is non-empty and its first
scalar value lies in one of the eleven ranges of the specification; it is false
for the empty string and for every string that begins with a space (U+0020),
whatever follows the space. -/
theorem startsWithEmoji_iff_compliant :
    (∀ s : String, startsWithEmoji s = true ↔ compliant s) ∧
    startsWithEmoji "" = false ∧
    (∀ rest : List Char, startsWithEmoji (String.mk (Char.ofNat 0x20 :: rest)) = false) := by
  refine ⟨?_, rfl, ?_⟩
  · intro s
    unfold startsWithEmoji compliant
    cases h : s.data with
    | nil => simp
    | cons c rest =>
      simp only [emojiRanges, List.head?_cons, Option.mem_def, Option.some.injEq,
        List.mem_cons, List.mem_singleton,
        Bool.or_eq_true, Bool.and_eq_true, decide_eq_true_eq, ge_iff_le]
      constructor
      · intro hc
        refine ⟨c, rfl, ?_⟩
        rcases hc with
          (((((((((hc | hc) | hc) | hc) | hc) | hc) | hc) | hc) | hc) | hc) | hc
        · exact ⟨(0x1F600, 0x1F64F), by simp, hc.1, hc.2⟩
        · exact ⟨(0x1F300, 0x1F5FF), by simp, hc.1, hc.2⟩
        · exact ⟨(0x1F680, 0x1F6FF), by simp, hc.1, hc.2⟩
        · exact ⟨(0x1F1E0, 0x1F1FF), by simp, hc.1, hc.2⟩
        · exact ⟨(0x2600, 0x26FF), by simp, hc.1, hc.2⟩
        · exact ⟨(0x2700, 0x27BF), by simp, hc.1, hc.2⟩
        · exact ⟨(0x1F900, 0x1F9FF), by simp, hc.1, hc.2⟩
        · exact ⟨(0x1FA00, 0x1FA6F), by simp, hc.1, hc.2⟩
        · exact ⟨(0x1F004, 0x1F0CF), by simp, hc.1, hc.2⟩
        · exact ⟨(0x2300, 0x23FF), by simp, hc.1, hc.2⟩
        · exact ⟨(0x2B00, 0x2BFF), by simp, hc.1, hc.2⟩
      · rintro ⟨c1, rfl, r, hr, h1, h2⟩
        rcases hr with hr | hr | hr | hr | hr | hr | hr | hr | hr | hr | hr | hr
        all_goals first
          | (subst hr; simp only at h1 h2; omega)
          | exact absurd hr (List.not_mem_nil _)
  · intro rest
    rfl

/-- C2: on every document `{name: w, jobs: {k_1: c_1, ..., k_m: c_m}}` whose job
configurations are `{name: j_i, steps: [{name: s_i1}, ..., {name: s_in}]}`, with
arbitrary key nodes `k_i` and with every name `w`, `j_i`, `s_ij` satisfying the
emoji-prefix predicate, `LintWorkflow` returns the empty violation list and no
error. -/
theorem LintWorkflow_compliant_document (w : String) (jobs : List JobShape)
    (hw : startsWithEmoji w = true)
    (hjobs : ∀ j ∈ jobs, startsWithEmoji j.name = true ∧
      ∀ s ∈ j.steps, startsWithEmoji s = true) :
    LintWorkflow (workflowDocument w jobs) = .returned ([], none) := by
  have hname : getName (mappingNode [scalarNode "name", scalarNode w,
      scalarNode "jobs", mappingNode (jobsEntries jobs)]) = .ok w := by
    simp [getName_eq, mappingNode, scalarNode, findNameIndex, findNameIndexFrom]
  have hjobsNode : findJobsNode (mappingNode [scalarNode "name", scalarNode w,
      scalarNode "jobs", mappingNode (jobsEntries jobs)]) = .ok (mappingNode (jobsEntries jobs)) := by
    simp [findJobsNode, findJobsNodeLoop, mappingNode, scalarNode]
  have hlint : lintJobs (mappingNode (jobsEntries jobs)) [] = .returned ([], none) := by
    simp only [lintJobs, mappingNode, yaml.Node.Content_mk, yamlKeyValuePairSize,
      jobsEntries_length_even, ne_eq, not_true_eq_false, if_false]
    exact lintJobsLoop_compliant jobs [] hjobs
  have hkind : (mappingNode [scalarNode "name", scalarNode w,
      scalarNode "jobs", mappingNode (jobsEntries jobs)]).Kind = yaml.Kind.MappingNode := rfl
  simp [LintWorkflow, workflowDocument, documentNode, lintWorkflowName, hname, hw, hjobsNode,
    hlint, hkind]

/-- Witness of C2: the document `name: 🚀 Deploy`,
`jobs: {build: {name: 🔨 Build, steps: [{name: 📥 Checkout}]}}`. -/
theorem LintWorkflow_compliant_document_witness :
    startsWithEmoji "🚀 Deploy" = true ∧ startsWithEmoji "🔨 Build" = true ∧
    startsWithEmoji "📥 Checkout" = true ∧
    LintWorkflow (workflowDocument "🚀 Deploy"
      [{ key := scalarNode "build", name := "🔨 Build", steps := ["📥 Checkout"] }]) =
      .returned ([], none) :=
  ⟨by decide, by decide, by decide,
   LintWorkflow_compliant_document "🚀 Deploy"
     [{ key := scalarNode "build", name := "🔨 Build", steps := ["📥 Checkout"] }]
     (by decide) (by decide)⟩

/-- C3: on the document
`name: Deploy`, `jobs: {build: {name: steps, steps: [{name: Checkout}]}}` the
workflow name, the job name and the name of the one step all fail the
emoji-prefix predicate, and `LintWorkflow` returns no error and two violations,
Workflow and Job, not the three of N + 2 with N = 1: the step is never looked
at, since `findStepsIndex` stops at the job name "steps" in the value position
and takes the key node after it for the steps sequence. -/
theorem LintWorkflow_jobNamedStepsDocument :
    startsWithEmoji "Deploy" = false ∧ startsWithEmoji "steps" = false ∧
    startsWithEmoji "Checkout" = false ∧
    LintWorkflow jobNamedStepsDocument =
      .returned ([noEmojiViolation Workflow "Deploy", noEmojiViolation Job "build"], none) := by
  decide

/-- C4: on the document `jobs: {build: {steps: [{name: Checkout}]}}`
`LintWorkflow` returns no error and two violations, the missing-name
violations of the workflow and of the job `build`; there is no Step violation
for `Checkout`, since the branch of `lintJobs` for a job without a name ends in
`continue` and never reaches `lintSteps`. -/
theorem LintWorkflow_missingNamesDocument :
    startsWithEmoji "Checkout" = false ∧
    LintWorkflow missingNamesDocument =
      .returned ([missingNameViolation Workflow "workflow", missingNameViolation Job "build"],
        none) := by
  decide

/-- C5: when the root is a Document node whose first child is a Mapping node
without a key "jobs", `LintWorkflow` returns an error and the empty violation
list, whatever `lintWorkflowName` had appended before. -/
theorem LintWorkflow_jobs_key_absent (root workflowRoot : yaml.Node) (others : List yaml.Node)
    (hdoc : root.Kind = yaml.Kind.DocumentNode)
    (hchild : root.Content = workflowRoot :: others)
    (hmap : workflowRoot.Kind = yaml.Kind.MappingNode)
    (hno : ¬ hasKey "jobs" workflowRoot.Content) :
    LintWorkflow root = .returned ([], some "jobs section not found in workflow") := by
  have herr := findJobsNodeLoop_of_no_key workflowRoot.Content hno
  simp [LintWorkflow, hdoc, hchild, hmap, findJobsNode, herr]

/-- Witness of C5: the document `name: Deploy`, `on: push`; its workflow name
is not compliant, so a Workflow violation is accumulated before the jobs
lookup fails. -/
theorem LintWorkflow_jobs_key_absent_witness :
    lintWorkflowName (mappingNode [scalarNode "name", scalarNode "Deploy",
        scalarNode "on", scalarNode "push"]) [] = [noEmojiViolation Workflow "Deploy"] ∧
    ¬ hasKey "jobs" [scalarNode "name", scalarNode "Deploy", scalarNode "on", scalarNode "push"] ∧
    LintWorkflow noJobsDocument =
      .returned ([], some "jobs section not found in workflow") :=
  ⟨by decide, by decide,
   LintWorkflow_jobs_key_absent noJobsDocument
     (mappingNode [scalarNode "name", scalarNode "Deploy", scalarNode "on", scalarNode "push"])
     [] rfl rfl rfl (by decide)⟩

/-- C6: on the document `name: 🚀 Deploy`,
`jobs: {build: {runs-on: ubuntu-latest, steps: [{run: make}]}}`, whose only
step has no key "name", `LintWorkflow` returns no error but the missing-name
violation of the job: the job has no name, so `lintJobs` goes to the next job
without checking the steps.  With `name: 🔨 Build` added to the job the same
step gives the structural error. -/
theorem LintWorkflow_namelessStepDocument :
    LintWorkflow namelessStepDocument =
      .returned ([missingNameViolation Job "build"], none) ∧
    LintWorkflow namelessStepNamedJobDocument =
      .returned ([], some "step does not contain a name property") := by
  decide

/-- C7: on the document `run-name: name`, `jobs: {build: {name: 🔨 Build}}`,
whose root mapping has no key "name", `LintWorkflow` returns no error and one
violation, which is not the missing-name violation: `findNameIndex` stops at
the value "name" of `run-name`, and the node after it, the key "jobs", is
reported as a workflow name without an emoji. -/
theorem LintWorkflow_runNameDocument :
    LintWorkflow runNameDocument = .returned ([noEmojiViolation Workflow "jobs"], none) ∧
    noEmojiViolation Workflow "jobs" ≠ missingNameViolation Workflow "workflow" := by
  decide

/-- C8: on the document `run-name: name`, `name: 🚀 Deploy`,
`jobs: {build: {name: 🔨 Build}}`, whose key "name" has a compliant value,
`LintWorkflow` returns a Workflow violation, with the Identifier "name":
`findNameIndex` stops at the value "name" of `run-name`, and the node after
it, the key "name" itself, is taken for the workflow name. -/
theorem LintWorkflow_runNameNamedDocument :
    startsWithEmoji "🚀 Deploy" = true ∧
    LintWorkflow runNameNamedDocument = .returned ([noEmojiViolation Workflow "name"], none) := by
  decide

/-- C9: on the jobs mapping `{build: {environment: name, name: 🔨 Build}}`,
whose one job declares a compliant name, `lintJobs` appends a Job violation
for `build`: `findNameIndex` stops at the value "name" of `environment`, and
the node after it, the key "name" itself, is taken for the job name. -/
theorem lintJobs_environmentJobs :
    startsWithEmoji "🔨 Build" = true ∧
    lintJobs environmentJobs [] = .returned ([noEmojiViolation Job "build"], none) := by
  decide

/-- C10: on the step mapping `{id: name, name: 🚀 Deploy}`, whose key "name"
has a compliant value, `lintStep` appends a Step violation, with the
Identifier "name": `findNameIndex` stops at the value "name" of `id`, and the
node after it, the key "name" itself, is taken for the step name. -/
theorem lintStep_idNameStep :
    startsWithEmoji "🚀 Deploy" = true ∧
    lintStep idNameStep [] = .returned ([noEmojiViolation Step "name"], none) := by
  decide

/-- C12: two trees that differ only in the value of the `name` entry of the
root mapping, or only in whether that entry is there, give the same result
once the Workflow violations are left out: `LintWorkflow` ends the same way on
both, with the same error if any, and with the same Job and Step violations in
the same order.  The `name` entry is a scalar key "name" at a key position
(after the even-length list `pre`) and its value. -/
theorem LintWorkflow_name_entry_independent (rootKind mapKind : yaml.Kind) (dv mv : String)
    (others pre post : List yaml.Node) (key v1 v2 : yaml.Node)
    (hpre : pre.length % 2 = 0)
    (hkey : key.Kind = yaml.Kind.ScalarNode ∧ key.Value = "name") :
    (LintWorkflow (.mk rootKind dv (.mk mapKind mv (pre ++ key :: v1 :: post) :: others))).jobAndStep
      = (LintWorkflow
          (.mk rootKind dv (.mk mapKind mv (pre ++ key :: v2 :: post) :: others))).jobAndStep ∧
    (LintWorkflow (.mk rootKind dv (.mk mapKind mv (pre ++ key :: v1 :: post) :: others))).jobAndStep
      = (LintWorkflow (.mk rootKind dv (.mk mapKind mv (pre ++ post) :: others))).jobAndStep := by
  have h1 := findJobsNodeLoop_skip_name key v1 post hkey pre hpre
  have h2 := findJobsNodeLoop_skip_name key v2 post hkey pre hpre
  exact ⟨LintWorkflow_jobAndStep_congr rootKind mapKind dv mv others _ _ (h1.trans h2.symm),
    LintWorkflow_jobAndStep_congr rootKind mapKind dv mv others _ _ h1⟩

/-- Witness of C12: the documents `on: push`, `name: Deploy`,
`jobs: {build: {name: Build}}`, the same with `name: 🚀 Deploy`, and the same
without the `name` entry. -/
theorem LintWorkflow_name_entry_independent_witness :
    [scalarNode "on", scalarNode "push"].length % 2 = 0 ∧
    ((LintWorkflow (.mk .DocumentNode "" (.mk .MappingNode ""
        ([scalarNode "on", scalarNode "push"] ++ scalarNode "name" :: scalarNode "Deploy" ::
          [scalarNode "jobs", mappingNode [scalarNode "build",
            mappingNode [scalarNode "name", scalarNode "Build"]]]) :: []))).jobAndStep
      = (LintWorkflow (.mk .DocumentNode "" (.mk .MappingNode ""
        ([scalarNode "on", scalarNode "push"] ++ scalarNode "name" :: scalarNode "🚀 Deploy" ::
          [scalarNode "jobs", mappingNode [scalarNode "build",
            mappingNode [scalarNode "name", scalarNode "Build"]]]) :: []))).jobAndStep ∧
    (LintWorkflow (.mk .DocumentNode "" (.mk .MappingNode ""
        ([scalarNode "on", scalarNode "push"] ++ scalarNode "name" :: scalarNode "Deploy" ::
          [scalarNode "jobs", mappingNode [scalarNode "build",
            mappingNode [scalarNode "name", scalarNode "Build"]]]) :: []))).jobAndStep
      = (LintWorkflow (.mk .DocumentNode "" (.mk .MappingNode ""
        ([scalarNode "on", scalarNode "push"] ++
          [scalarNode "jobs", mappingNode [scalarNode "build",
            mappingNode [scalarNode "name", scalarNode "Build"]]]) :: []))).jobAndStep) :=
  ⟨by decide,
   LintWorkflow_name_entry_independent .DocumentNode .MappingNode "" "" []
     [scalarNode "on", scalarNode "push"]
     [scalarNode "jobs", mappingNode [scalarNode "build",
       mappingNode [scalarNode "name", scalarNode "Build"]]]
     (scalarNode "name") (scalarNode "Deploy") (scalarNode "🚀 Deploy")
     (by decide) ⟨rfl, rfl⟩⟩

/-- C13: when the root is a Document node whose first child is a Mapping node
whose key "jobs" has a value with an odd number of children, `lintJobs`
returns its error before the loop, leaving the list as it was, and
`LintWorkflow` returns that error and no violations. -/
theorem LintWorkflow_jobs_odd (root workflowRoot jobsNode : yaml.Node) (others : List yaml.Node)
    (hdoc : root.Kind = yaml.Kind.DocumentNode)
    (hchild : root.Content = workflowRoot :: others)
    (hmap : workflowRoot.Kind = yaml.Kind.MappingNode)
    (hjobs : lookupKey "jobs" workflowRoot.Content = some jobsNode)
    (hodd : jobsNode.Content.length % 2 = 1) :
    (∀ out : List Violation, lintJobs jobsNode out = .returned (out,
      some "jobs node content is not even. Every job must have configuration set")) ∧
    LintWorkflow root = .returned ([],
      some "jobs node content is not even. Every job must have configuration set") := by
  have hlint : ∀ out : List Violation, lintJobs jobsNode out = .returned (out,
      some "jobs node content is not even. Every job must have configuration set") := by
    intro out
    simp [lintJobs, yamlKeyValuePairSize, hodd]
  have hfind : findJobsNode workflowRoot = .ok jobsNode :=
    (findJobsNodeLoop_eq_ok_iff _ _).mpr hjobs
  refine ⟨hlint, ?_⟩
  simp [LintWorkflow, hdoc, hchild, hmap, hfind, hlint]

/-- Witness of C13: `jobs:` with the one child `build`. -/
theorem LintWorkflow_jobs_odd_witness :
    (lookupKey "jobs" [scalarNode "name", scalarNode "🚀 Deploy",
      scalarNode "jobs", mappingNode [scalarNode "build"]]).map
        (fun n => n.Content.length) = some 1 ∧
    LintWorkflow oddJobsDocument = .returned ([],
      some "jobs node content is not even. Every job must have configuration set") :=
  ⟨by decide,
   (LintWorkflow_jobs_odd oddJobsDocument
     (mappingNode [scalarNode "name", scalarNode "🚀 Deploy",
       scalarNode "jobs", mappingNode [scalarNode "build"]])
     (mappingNode [scalarNode "build"]) [] rfl rfl rfl rfl rfl).2⟩

/-- C14: on the mapping `{id: name, name: 🚀 Deploy}` the specification's
lookup of "name" gives the value `🚀 Deploy` at position 3, but
`findNameIndex` returns the index 1 of the value "name" and `getName` returns
the text of the node after it, the key "name" itself; on the mapping
`{name: 🔨 Build, needs: steps}`, which has no key "steps", `findStepsIndex`
does not report "not found" but returns the index 3 of the value "steps". -/
theorem findNameIndex_matches_value_position :
    (lookupKey "name" idNameStep.Content).map yaml.Node.Value = some "🚀 Deploy" ∧
    findNameIndex idNameStep.Content = .ok 1 ∧
    getName idNameStep = .ok "name" ∧
    ¬ hasKey "steps" needsStepsConfig.Content ∧
    findStepsIndex needsStepsConfig.Content = some 3 :=
  ⟨by decide, rfl, rfl, by decide, by decide⟩

/-- C18: on the zero-valued node (Kind 0, no children) `LintWorkflow` returns
an error and no violations; the result is not "zero violations, no error". -/
theorem LintWorkflow_emptyInputNode :
    LintWorkflow emptyInputNode =
      .returned ([], some "invalid workflow: expected document node") ∧
    LintWorkflow emptyInputNode ≠ .returned ([], none) := by
  decide

/-- C19: on the jobs mapping `{build: {name: 🔨 Build, needs: steps}}`, whose
job has a compliant name and no key "steps", `lintJobs` returns a structural
error, and so does `LintWorkflow` on the document around it: `findStepsIndex`
stops at the value "steps" of `needs`, the last child, and the guard of
`lintSteps` finds no node after it. -/
theorem lintJobs_needsStepsConfig :
    startsWithEmoji "🔨 Build" = true ∧
    ¬ hasKey "steps" needsStepsConfig.Content ∧
    lintJobs (mappingNode [scalarNode "build", needsStepsConfig]) [] = .returned ([],
      some "steps node content is not even. Every step must have configuration set") ∧
    LintWorkflow needsStepsDocument = .returned ([],
      some "steps node content is not even. Every step must have configuration set") := by
  decide

/-- C15 fails as stated: in the document `name: 🚀 Deploy`,
`jobs: {build: {name: 🔨 Build, steps: none}}` the value of the key "steps" is
a scalar, and `LintWorkflow` returns no error and no violation. -/
theorem LintWorkflow_stepsScalarDocument :
    (lookupKey "steps" [scalarNode "name", scalarNode "🔨 Build",
      scalarNode "steps", scalarNode "none"]).map yaml.Node.Kind = some yaml.Kind.ScalarNode ∧
    LintWorkflow stepsScalarDocument = .returned ([], none) := by
  decide

/-- C15, amended: `lintSteps` does not look at the Kind of the value of the
key "steps" (the first scalar "steps" of the configuration, at a key
position): it lints the children of that value as the steps, so a value
without children, such as any scalar, gives no error and no violation. -/
theorem lintSteps_steps_value_any_kind (config stepsKey value : yaml.Node)
    (pre post : List yaml.Node) (out : List Violation)
    (hcontent : config.Content = pre ++ stepsKey :: value :: post)
    (hposition : pre.length % 2 = 0)
    (hpre : ∀ n ∈ pre, ¬ (n.Kind = yaml.Kind.ScalarNode ∧ n.Value = "steps"))
    (hkey : stepsKey.Kind = yaml.Kind.ScalarNode ∧ stepsKey.Value = "steps") :
    lintSteps config out = lintStepsLoop value.Content out ∧
    (value.Content = [] → lintSteps config out = .returned (out, none)) := by
  have _ := hposition
  have h := lintSteps_of_first_steps config stepsKey value pre post out hcontent hpre hkey
  refine ⟨h, fun hnil => ?_⟩
  rw [h, hnil, lintStepsLoop]

/-- Witness of C15, amended: the job configuration
`{name: 🔨 Build, steps: none}`. -/
theorem lintSteps_steps_value_any_kind_witness :
    lintSteps (mappingNode [scalarNode "name", scalarNode "🔨 Build",
      scalarNode "steps", scalarNode "none"]) [] = .returned ([], none) :=
  (lintSteps_steps_value_any_kind
    (mappingNode [scalarNode "name", scalarNode "🔨 Build", scalarNode "steps", scalarNode "none"])
    (scalarNode "steps") (scalarNode "none") [scalarNode "name", scalarNode "🔨 Build"] [] []
    rfl (by decide) (by decide) ⟨rfl, rfl⟩).2 rfl

/-- C16 fails as stated: in the document `name: 🚀 Deploy`, `jobs: build` the
value of the key "jobs" is a scalar, and `LintWorkflow` returns no error and no
violation; in `name: 🚀 Deploy`, `jobs: [build, test]` it is a sequence of two
elements, and `LintWorkflow` returns no error and a Job violation for
`build`. -/
theorem LintWorkflow_jobsScalarDocument :
    (lookupKey "jobs" [scalarNode "name", scalarNode "🚀 Deploy",
      scalarNode "jobs", scalarNode "build"]).map yaml.Node.Kind = some yaml.Kind.ScalarNode ∧
    LintWorkflow jobsScalarDocument = .returned ([], none) ∧
    LintWorkflow jobsSequenceDocument =
      .returned ([missingNameViolation Job "build"], none) := by
  decide

/-- C16, amended: `lintJobs` does not look at the Kind of the value of the key
"jobs": it reads the children of that value as the job keys and
configurations, as it does for a Mapping node with the same children; so when
that value has no children (a scalar, an empty sequence) `LintWorkflow` returns
no error and the violations of the workflow name alone. -/
theorem LintWorkflow_jobs_value_any_kind (root workflowRoot jobsNode : yaml.Node)
    (others : List yaml.Node)
    (hdoc : root.Kind = yaml.Kind.DocumentNode)
    (hchild : root.Content = workflowRoot :: others)
    (hmap : workflowRoot.Kind = yaml.Kind.MappingNode)
    (hjobs : lookupKey "jobs" workflowRoot.Content = some jobsNode) :
    (∀ out : List Violation,
      lintJobs jobsNode out = lintJobs (mappingNode jobsNode.Content) out) ∧
    (jobsNode.Content = [] →
      LintWorkflow root = .returned (lintWorkflowName workflowRoot [], none)) := by
  have hfind : findJobsNode workflowRoot = .ok jobsNode :=
    (findJobsNodeLoop_eq_ok_iff _ _).mpr hjobs
  refine ⟨fun out => rfl, fun hnil => ?_⟩
  have hlint : ∀ out : List Violation, lintJobs jobsNode out = .returned (out, none) := by
    intro out
    simp [lintJobs, hnil, lintJobsLoop]
  simp [LintWorkflow, hdoc, hchild, hmap, hfind, hlint]

/-- Witness of C16, amended: the document `name: 🚀 Deploy`, `jobs: build`. -/
theorem LintWorkflow_jobs_value_any_kind_witness :
    LintWorkflow jobsScalarDocument =
      .returned (lintWorkflowName (mappingNode [scalarNode "name", scalarNode "🚀 Deploy",
        scalarNode "jobs", scalarNode "build"]) [], none) :=
  (LintWorkflow_jobs_value_any_kind jobsScalarDocument
    (mappingNode [scalarNode "name", scalarNode "🚀 Deploy",
      scalarNode "jobs", scalarNode "build"])
    (scalarNode "build") [] rfl rfl rfl rfl).2 rfl

/-- C17 fails as stated: on a Document node with two children, the first of
which is the mapping `name: 🚀 Deploy`, `jobs: {}`, `LintWorkflow` returns no
error. -/
theorem LintWorkflow_twoChildrenDocument :
    twoChildrenDocument.Kind = yaml.Kind.DocumentNode ∧
    twoChildrenDocument.Content.length = 2 ∧
    LintWorkflow twoChildrenDocument = .returned ([], none) := by
  decide

/-- C17, amended: `LintWorkflow` returns an error and no violations for every
tree whose root is not a Document node, or whose root has no children, or
whose first child is not a Mapping node; the children of the root after the
first are not looked at: two roots that differ only there give the same
result. -/
theorem LintWorkflow_root_shape (root : yaml.Node)
    (h : root.Kind ≠ yaml.Kind.DocumentNode ∨ root.Content = [] ∨
      ∃ first rest, root.Content = first :: rest ∧ first.Kind ≠ yaml.Kind.MappingNode) :
    (LintWorkflow root = .returned ([], some "invalid workflow: expected document node") ∨
      LintWorkflow root = .returned ([], some "invalid workflow: root must be a mapping")) ∧
    (∀ (kind : yaml.Kind) (value : String) (first : yaml.Node) (rest rest2 : List yaml.Node),
      LintWorkflow (.mk kind value (first :: rest)) =
        LintWorkflow (.mk kind value (first :: rest2))) := by
  refine ⟨?_, fun kind value first rest rest2 => by simp [LintWorkflow]⟩
  unfold LintWorkflow
  by_cases hdoc : root.Kind = yaml.Kind.DocumentNode
  · cases hroot : root.Content with
    | nil => exact Or.inl (by simp [hdoc])
    | cons first rest =>
      rcases h with h | h | ⟨first1, rest1, hcontent, hkind⟩
      · exact absurd hdoc h
      · simp [hroot] at h
      · rw [hroot] at hcontent
        obtain ⟨rfl, rfl⟩ := List.cons.inj hcontent
        exact Or.inr (by simp [hdoc, hkind])
  · exact Or.inl (by simp [hdoc])

/-- Witness of C17, amended: a root that is a scalar node. -/
theorem LintWorkflow_root_shape_witness :
    (scalarNode "text").Kind ≠ yaml.Kind.DocumentNode ∧
    (LintWorkflow (scalarNode "text") =
        .returned ([], some "invalid workflow: expected document node") ∨
      LintWorkflow (scalarNode "text") =
        .returned ([], some "invalid workflow: root must be a mapping")) :=
  ⟨by decide, (LintWorkflow_root_shape (scalarNode "text") (Or.inl (by decide))).1⟩

/-- C20 fails as stated: in the document `name: 🚀 Deploy`, `jobs: {build: ...}`
where the configuration of `build` has the three children `name`, `🔨 Build`,
`runs-on`, an odd number, `LintWorkflow` returns no error and no violation. -/
theorem LintWorkflow_oddJobConfigDocument :
    [scalarNode "name", scalarNode "🔨 Build", scalarNode "runs-on"].length % 2 = 1 ∧
    LintWorkflow oddJobConfigDocument = .returned ([], none) := by
  decide

/-- C20, amended: a job configuration with an odd number of children makes
`LintWorkflow` fail with a structural error, and return no violations, when the
key without a value is the key "steps" of a job that declares a name: the jobs
node is the value of the key "jobs" of the root mapping; the jobs before the
job are linted without error; the configuration of the job is an even-length
list of entries, with the key "name" first among its scalars "name" and with
no scalar "steps", followed by the key "steps" alone. -/
theorem LintWorkflow_dangling_steps_key (root workflowRoot jobsNode key config : yaml.Node)
    (others earlier later namePre nameRest : List yaml.Node)
    (nameKey nameValue stepsKey : yaml.Node) (earlierPart : List Violation)
    (hdoc : root.Kind = yaml.Kind.DocumentNode)
    (hchild : root.Content = workflowRoot :: others)
    (hmap : workflowRoot.Kind = yaml.Kind.MappingNode)
    (hjobs : lookupKey "jobs" workflowRoot.Content = some jobsNode)
    (hcontent : jobsNode.Content = earlier ++ key :: config :: later)
    (hlater : later.length % 2 = 0)
    (hearlier : lintJobsLoop earlier [] = .returned (earlierPart, none))
    (hconfig : config.Content = (namePre ++ nameKey :: nameValue :: nameRest) ++ [stepsKey])
    (hnamePosition : namePre.length % 2 = 0)
    (hstepsPosition : nameRest.length % 2 = 0)
    (hnamePre : ∀ n ∈ namePre, ¬ (n.Kind = yaml.Kind.ScalarNode ∧ n.Value = "name"))
    (hnameKey : nameKey.Kind = yaml.Kind.ScalarNode ∧ nameKey.Value = "name")
    (hsteps : ∀ n ∈ namePre ++ nameKey :: nameValue :: nameRest,
      ¬ (n.Kind = yaml.Kind.ScalarNode ∧ n.Value = "steps"))
    (hstepsKey : stepsKey.Kind = yaml.Kind.ScalarNode ∧ stepsKey.Value = "steps") :
    config.Content.length % 2 = 1 ∧
    LintWorkflow root = .returned ([],
      some "steps node content is not even. Every step must have configuration set") := by
  have hoddlen : config.Content.length % 2 = 1 := by
    rw [hconfig]
    simp only [List.length_append, List.length_cons, List.length_nil]
    omega
  have hfind : findJobsNode workflowRoot = .ok jobsNode :=
    (findJobsNodeLoop_eq_ok_iff _ _).mpr hjobs
  have heven : jobsNode.Content.length % 2 = 0 := by
    have := lintJobsLoop_returned_even earlier earlierPart hearlier
    rw [hcontent]
    simp only [List.length_append, List.length_cons]
    omega
  have hname : getName config = .ok nameValue.Value :=
    getName_of_first_name config nameKey nameValue namePre (nameRest ++ [stepsKey])
      (by rw [hconfig]; simp) hnamePre hnameKey
  have hlintSteps : ∀ out : List Violation, lintSteps config out = .returned (out,
      some "steps node content is not even. Every step must have configuration set") :=
    fun out => lintSteps_of_last_steps config stepsKey _ out hconfig hsteps hstepsKey
  have hloop : ∀ out : List Violation, ∃ vs, lintJobsLoop jobsNode.Content out = .returned (vs,
      some "steps node content is not even. Every step must have configuration set") := by
    intro out
    rw [hcontent, lintJobsLoop_append earlier _ out earlierPart hearlier, lintJobsLoop, hname]
    simp only [hlintSteps]
    exact ⟨_, rfl⟩
  obtain ⟨vs, hvs⟩ := hloop (lintWorkflowName workflowRoot [])
  refine ⟨hoddlen, ?_⟩
  simp [LintWorkflow, hdoc, hchild, hmap, hfind, lintJobs, yamlKeyValuePairSize, heven, hvs]

/-- Witness of C20, amended: the document `name: 🚀 Deploy`,
`jobs: {lint: {name: 🧹 Lint}, build: ...}` where the configuration of `build`
has the children `name`, `🔨 Build`, `steps`. -/
theorem LintWorkflow_dangling_steps_key_witness :
    [scalarNode "name", scalarNode "🔨 Build", scalarNode "steps"].length % 2 = 1 ∧
    LintWorkflow danglingStepsDocument = .returned ([],
      some "steps node content is not even. Every step must have configuration set") :=
  LintWorkflow_dangling_steps_key danglingStepsDocument
    (mappingNode [scalarNode "name", scalarNode "🚀 Deploy",
      scalarNode "jobs", mappingNode [
        scalarNode "lint", mappingNode [scalarNode "name", scalarNode "🧹 Lint"],
        scalarNode "build",
        mappingNode [scalarNode "name", scalarNode "🔨 Build", scalarNode "steps"]]])
    (mappingNode [
        scalarNode "lint", mappingNode [scalarNode "name", scalarNode "🧹 Lint"],
        scalarNode "build",
        mappingNode [scalarNode "name", scalarNode "🔨 Build", scalarNode "steps"]])
    (scalarNode "build")
    (mappingNode [scalarNode "name", scalarNode "🔨 Build", scalarNode "steps"])
    [] [scalarNode "lint", mappingNode [scalarNode "name", scalarNode "🧹 Lint"]] [] [] []
    (scalarNode "name") (scalarNode "🔨 Build") (scalarNode "steps") []
    rfl rfl rfl rfl rfl (by decide) (by decide) rfl (by decide) (by decide) (by decide)
    ⟨rfl, rfl⟩ (by decide) ⟨rfl, rfl⟩

/-- C21: in the document `name: 🚀 Deploy`,
`jobs: {build: {name: 🔨 Build, steps: [{uses: name}]}}` every mapping node
has an even number of children, yet `LintWorkflow` returns neither a violation
list nor an error: in the step `{uses: name}` `findNameIndex` returns the index
1 of the value "name", the last child, and `lintStep` reads `Content[2]`, which
is out of range. -/
theorem LintWorkflow_usesNameDocument :
    evenMappings usesNameDocument = true ∧
    findNameIndex [scalarNode "uses", scalarNode "name"] = .ok 1 ∧
    lintStep (mappingNode [scalarNode "uses", scalarNode "name"]) [] = .indexOutOfRange ∧
    LintWorkflow usesNameDocument = .indexOutOfRange :=
  ⟨by decide, rfl, by decide, by decide⟩

/-- Whenever `LintWorkflow` succeeds, every violation of type Workflow or Step
in its result has an Identifier on which `startsWithEmoji` is false.  The
Identifier is the text that the code took for the name, which need not be the
declared name. -/
theorem LintWorkflow_reported_names_fail (root : yaml.Node) (vs : List Violation)
    (h : LintWorkflow root = .returned (vs, none)) :
    ∀ v ∈ vs, v.Type_ = Workflow ∨ v.Type_ = Step → startsWithEmoji v.Identifier = false := by
  obtain ⟨workflowRoot, jobsNode, jobsPart, _, _, hloop, hvs⟩ :=
    LintWorkflow_eq_returned root vs h
  intro v hv htype
  rw [hvs, List.mem_append] at hv
  rcases hv with hv | hv
  · exact lintWorkflowName_identifier workflowRoot v hv
  · rcases lintJobsLoop_identifier jobsNode.Content jobsPart hloop v hv with hjob | hstep
    · rw [hjob] at htype
      exact absurd htype (by decide)
    · exact hstep.2

/-- An instance of `LintWorkflow_reported_names_fail`: the document
`jobs: {build: {name: Build, steps: [{name: Checkout}]}}`, where the Workflow
violation is identified by "workflow" and the Step violation by "Checkout". -/
theorem LintWorkflow_reported_names_fail_witness :
    LintWorkflow (documentNode (mappingNode [scalarNode "jobs",
      mappingNode [scalarNode "build", jobConfigNamed "Build" ["Checkout"]]])) =
      .returned ([missingNameViolation Workflow "workflow", noEmojiViolation Job "build",
        noEmojiViolation Step "Checkout"], none) ∧
    ∀ v ∈ [missingNameViolation Workflow "workflow", noEmojiViolation Job "build",
        noEmojiViolation Step "Checkout"],
      v.Type_ = Workflow ∨ v.Type_ = Step → startsWithEmoji v.Identifier = false :=
  ⟨by decide,
   LintWorkflow_reported_names_fail
     (documentNode (mappingNode [scalarNode "jobs",
       mappingNode [scalarNode "build", jobConfigNamed "Build" ["Checkout"]]]))
     _ (by decide)⟩


/-- C22: in the document `run-name: name`, `name: 🚀 Deploy`,
`jobs: {build: {name: 🔨 Build, steps: [{id: name, name: 📥 Checkout}]}}` the
workflow name `🚀 Deploy` and the step name `📥 Checkout` start with an emoji
of the ranges, yet `LintWorkflow` succeeds and reports a Workflow violation and
a Step violation; the Identifier of each is the text "name" of a key node,
neither the literal "workflow" nor the declared name: `findNameIndex` stops at
the value "name" of the entry before the key. -/
theorem LintWorkflow_compliantNamesDocument :
    (lookupKey "name" [scalarNode "run-name", scalarNode "name",
      scalarNode "name", scalarNode "🚀 Deploy"]).map yaml.Node.Value = some "🚀 Deploy" ∧
    (lookupKey "name" [scalarNode "id", scalarNode "name",
      scalarNode "name", scalarNode "📥 Checkout"]).map yaml.Node.Value = some "📥 Checkout" ∧
    startsWithEmoji "🚀 Deploy" = true ∧ startsWithEmoji "📥 Checkout" = true ∧
    LintWorkflow compliantNamesDocument =
      .returned ([noEmojiViolation Workflow "name", noEmojiViolation Step "name"], none) := by
  decide
